import Mathlib

/-!
Verification development for the segmentation kernel of an rMQR code
generator (`segments.py` and `encoder/byte_encoder.py`), a dynamic
programming optimizer that partitions input text into mode-tagged
segments of minimum total bit length.

Python strings are modelled as `List Char`; the DP tables, which the
Python class allocates as nested lists and mutates in place, are
modelled as functions updated functionally and threaded through
explicitly, so that reuse of one optimizer instance across calls is
expressible.
-/

namespace RMQR

/-- The four encoding modes, in the order of the `encoders` list of
`segments.py` (index 0 = Numeric, 1 = Alphanumeric, 2 = Byte, 3 = Kanji). -/
inductive Mode
  | numeric
  | alphanumeric
  | byte
  | kanji
deriving DecidableEq, Repr, Fintype

/-- Index of a mode in the `encoders` list. -/
def Mode.idx : Mode → Nat
  | .numeric => 0
  | .alphanumeric => 1
  | .byte => 2
  | .kanji => 3

/-- The `encoders` list of `segments.py` (order is significant). -/
def modeList : List Mode := [.numeric, .alphanumeric, .byte, .kanji]

/-- Modelled from the spec: the capacity table `rMQRVersions` and the error
correction level are external collaborators not under `src/`; an `Env`
bundles, for one chosen version and ECC level, the per-mode count indicator
width `character_count_indicator_length`, the capacity `number_of_data_bits`
for the chosen ECC level, and the Kanji validity predicate of
`KanjiEncoder.is_valid_characters` (two double-byte code-point bands of a
legacy Japanese encoding; not under `src/` either, kept abstract here). -/
structure Env where
  ciw : Mode → Nat
  numDataBits : Nat
  kanjiValid : Char → Bool

/-- Modelled from the spec: `NumericEncoder` validity, digits only. -/
def numericValidChar (c : Char) : Bool := decide ('0' ≤ c) && decide (c ≤ '9')

/-- Modelled from the spec: the fixed symbol subset of the 45-symbol
alphanumeric alphabet (beyond digits and uppercase letters). -/
def alphanumericSymbols : List Char := [' ', '$', '%', '*', '+', '-', '.', '/', ':']

/-- Modelled from the spec: `AlphanumericEncoder` validity, digits,
uppercase letters and the fixed symbol subset. -/
def alphanumericValidChar (c : Char) : Bool :=
  numericValidChar c || (decide ('A' ≤ c) && decide (c ≤ 'Z')) || alphanumericSymbols.contains c

/-- The `is_valid_characters` test of each encoder class, on one character,
as consulted by the optimizer. Byte accepts everything (fallback); Kanji
validity is the abstract predicate of the environment. -/
def isValidChar (env : Env) : Mode → Char → Bool
  | .numeric, c => numericValidChar c
  | .alphanumeric, c => alphanumericValidChar c
  | .byte, _ => true
  | .kanji, c => env.kanjiValid c

/-- UTF-8 byte count of a string (`len(s.encode("utf-8"))` in Python). -/
def utf8Len (s : List Char) : Nat := (s.map Char.utf8Size).sum

/-- Modelled from the spec: Numeric payload bits, groups of 3 digits →
10 bits, trailing group of 2 → 7 bits, trailing group of 1 → 4 bits. -/
def numericPayload (k : Nat) : Nat :=
  10 * (k / 3) + (if k % 3 = 0 then 0 else if k % 3 = 1 then 4 else 7)

/-- Modelled from the spec: Alphanumeric payload bits, groups of 2 symbols →
11 bits, trailing single symbol → 6 bits. -/
def alphanumericPayload (k : Nat) : Nat :=
  11 * (k / 2) + (if k % 2 = 0 then 0 else 6)

/-- Payload bits of a mode for a given string: Byte is 8 bits per UTF-8
byte (from `ByteEncoder` in `src/`), Kanji 13 bits per character, Numeric and
Alphanumeric by their grouping rules (modelled from the spec). -/
def encPayload : Mode → List Char → Nat
  | .numeric, s => numericPayload s.length
  | .alphanumeric, s => alphanumericPayload s.length
  | .byte, s => 8 * utf8Len s
  | .kanji, s => 13 * s.length

/-- Each encoder class `length(data, character_count_indicator_length)`:
mode indicator (3 bits: `"011"` for Byte in `src/`; for the other modes
modelled from the spec, whose Kanji golden vector `length("点茗", 5) = 34`
pins 3 bits as well) plus count indicator width plus payload bits. -/
def encLength (env : Env) (m : Mode) (s : List Char) : Nat :=
  3 + env.ciw m + encPayload m s

/-- A segment as returned by the optimizer: a substring together with the
encoder class (mode) chosen for it. -/
structure Segment where
  data : List Char
  encoder_class : Mode
deriving DecidableEq, Repr

/-- `compute_length` of `segments.py`: the sum over segments of
`encoder_class.length(data, character_count_indicator_length)`. -/
def compute_length (env : Env) (segments : List Segment) : Nat :=
  (segments.map (fun s => encLength env s.encoder_class s.data)).sum

/-- Concatenation of the segment substrings, in order. -/
def joinData (segments : List Segment) : List Char :=
  (segments.map (fun s => s.data)).flatten

/-- `SegmentOptimizer.MAX_CHARACTER`. -/
def MAX_CHARACTER : Nat := 360

/-- `SegmentOptimizer.INF`. -/
def INF : Nat := 100000

/-- Modelled from the spec: `DataTooLongError` of `errors.py` (not under
`src/`), the error kind raised both for over-long input and for capacity
overflow. -/
inductive RmqrError
  | dataTooLongError
deriving DecidableEq, Repr

/-- One row of the DP cost table: `dp[n][mode][unfilled_length]`. -/
abbrev Row := Mode → Fin 3 → Nat

/-- A parent pointer cell: either the initial `(-1, -1, -1)` sentinel or a
stored index `(n, mode, unfilled_length)`. -/
inductive Parent
  | unset
  | mk (n : Nat) (mode : Mode) (u : Fin 3)
deriving DecidableEq, Repr

/-- One row of the parent pointer table. -/
abbrev PRow := Mode → Fin 3 → Parent

/-- The two tables of a `SegmentOptimizer` instance, allocated by
`__init__` and mutated in place by `compute`. -/
structure Tables where
  dp : Nat → Row
  parents : Nat → PRow

/-- Tables as allocated by `SegmentOptimizer.__init__`: every cost is `INF`
and every parent is the `(-1, -1, -1)` sentinel. -/
def initTables : Tables :=
  ⟨fun _ _ _ => INF, fun _ _ _ => Parent.unset⟩

/-- Pointwise update of a single `(mode, unfilled_length)` cell of a row. -/
def setCell (f : Mode → Fin 3 → α) (m : Mode) (u : Fin 3) (v : α) : Mode → Fin 3 → α :=
  fun m2 u2 => if m2 = m ∧ u2 = u then v else f m2 u2

/-- `_compute_new_state_without_mode_changing`: cost and new
`unfilled_length` when one more character joins the current group. -/
def compute_new_state_without_mode_changing (c : Char) (new_mode : Mode) (u : Fin 3) :
    Nat × Fin 3 :=
  match new_mode with
  | .numeric => ((if u.val = 0 then 4 else 3), ⟨(u.val + 1) % 3, by omega⟩)
  | .alphanumeric => ((if u.val = 0 then 6 else 5), ⟨(u.val + 1) % 2, by omega⟩)
  | .byte => (8 * c.utf8Size, 0)
  | .kanji => (13, 0)

/-- `_compute_new_state_with_mode_changing`: cost and new `unfilled_length`
when a brand-new segment in `new_mode` starts with this character. -/
def compute_new_state_with_mode_changing (env : Env) (c : Char) (new_mode : Mode) :
    Nat × Fin 3 :=
  (encLength env new_mode [c],
    match new_mode with
    | .numeric => 1
    | .alphanumeric => 1
    | .byte => 0
    | .kanji => 0)

/-- The states `(mode, unfilled_length)` in the iteration order of the
nested loops `for mode in range(4): for unfilled_length in range(3)`. -/
def stateList : List (Mode × Fin 3) :=
  modeList.flatMap (fun m => [(m, 0), (m, 1), (m, 2)])

/-- The triples `((mode, unfilled_length), new_mode)` in the iteration order
of the three nested relaxation loops of `_compute_costs`. -/
def candList : List ((Mode × Fin 3) × Mode) :=
  stateList.flatMap (fun s => modeList.map (fun nm => (s, nm)))

/-- Cost and target `unfilled_length` of one relaxation candidate, as
selected by the `new_mode == mode` test of `_compute_costs`. -/
def transitionOf (env : Env) (c : Char) (m : Mode) (u : Fin 3) (nm : Mode) : Nat × Fin 3 :=
  if nm = m then compute_new_state_without_mode_changing c nm u
  else compute_new_state_with_mode_changing env c nm

/-- One iteration of the innermost relaxation loop of `_compute_costs`:
skip `INF` sources, skip invalid characters, and overwrite the target cell
(cost and parent together) only on a strict improvement. `cur` is the row
`dp[n]` being read, `acc` the row `dp[n+1]`/`parents[n+1]` being written;
the source row is never the target row, so reading `cur` while writing
`acc` matches the in-place Python loop exactly. -/
def relaxStep (env : Env) (n : Nat) (c : Char) (cur : Row) (acc : Row × PRow)
    (cand : (Mode × Fin 3) × Mode) : Row × PRow :=
  let m := cand.1.1
  let u := cand.1.2
  let nm := cand.2
  if cur m u = INF then acc
  else if isValidChar env nm c then
    let t := transitionOf env c m u nm
    if cur m u + t.1 < acc.1 nm t.2 then
      (setCell acc.1 nm t.2 (cur m u + t.1), setCell acc.2 nm t.2 (Parent.mk n m u))
    else acc
  else acc

/-- The whole relaxation of position `n` (all three nested loops of
`_compute_costs` for one `n`), flattened over `candList`. -/
def relaxRow (env : Env) (n : Nat) (c : Char) (cur : Row) (init : Row × PRow) : Row × PRow :=
  candList.foldl (relaxStep env n c cur) init

/-- The base case setup of `_compute_costs`: for every mode,
`dp[0][mode][0] = length("", ciw)` and `parents[0][mode][0] = (0, 0, 0)`
(the literal tuple `(0, 0, 0)`, whose mode component is index 0, Numeric). -/
def baseSetup (env : Env) (t : Tables) : Tables :=
  ⟨Function.update t.dp 0 (fun m u => if u = 0 then encLength env m [] else t.dp 0 m u),
   Function.update t.parents 0
     (fun m u => if u = 0 then Parent.mk 0 Mode.numeric 0 else t.parents 0 m u)⟩

/-- One iteration of the outer loop `for n in range(0, len(data))` of
`_compute_costs`: relax from row `n` into row `n + 1`, the written row
starting from its current (possibly stale) contents. -/
def stepTable (env : Env) (data : List Char) (t : Tables) (n : Nat) : Tables :=
  let rp := relaxRow env n (data.getD n default) (t.dp n) (t.dp (n + 1), t.parents (n + 1))
  ⟨Function.update t.dp (n + 1) rp.1, Function.update t.parents (n + 1) rp.2⟩

/-- The tables after the base setup and the first `j` iterations of the
outer loop of `_compute_costs`. -/
def costsUpTo (env : Env) (data : List Char) (t0 : Tables) : Nat → Tables
  | 0 => baseSetup env t0
  | j + 1 => stepTable env data (costsUpTo env data t0 j) j

/-- `_compute_costs`: the full DP over the given tables (which `compute`
does not reset; a fresh instance has `initTables`). -/
def computeCosts (env : Env) (data : List Char) (t0 : Tables) : Tables :=
  costsUpTo env data t0 data.length

/-- The result of `_find_best`: minimum cost and its index, the index
staying `none` (the `(-1, -1, -1)` placeholder) when every cell is `INF`
or larger. -/
structure Best where
  cost : Nat
  index : Option (Nat × Mode × Fin 3)
deriving DecidableEq, Repr

/-- Generic first-strict-minimum fold: scan a list keeping the least value
seen so far, replacing only on a strict decrease, tagging the witness. -/
def firstMinFold (l : List α) (f : α → Nat) (g : α → β) (acc : Nat × Option β) :
    Nat × Option β :=
  l.foldl (fun a x => if f x < a.1 then (f x, some (g x)) else a) acc

/-- `_find_best`: scan `dp[len(data)]` in the order
`for mode in range(4): for unfilled_length in range(3)`, keeping the first
strict minimum, starting from cost `INF` and an unset index. -/
def findBest (row : Row) (L : Nat) : Best :=
  let r := firstMinFold stateList (fun s => row s.1 s.2) (fun s => (L, s.1, s.2)) (INF, none)
  ⟨r.1, r.2⟩

/-- The loop body of `_reconstruct_path`, with explicit fuel. The Python
`while index[0] != 0` loop appends the index and follows the parent
pointer; on the `(-1, -1, -1)` sentinel Python list indexing wraps around
to cell `(MAX_CHARACTER, 3, 2)`, reproduced here; the fuel equals the loop
count on every reachable chain, where the position drops by exactly one
per step. -/
def recPath (par : Nat → PRow) : Nat → Nat × Mode × Fin 3 → List (Nat × Mode × Fin 3)
  | 0, _ => []
  | fuel + 1, idx =>
    if idx.1 = 0 then []
    else
      idx ::
        (match par idx.1 idx.2.1 idx.2.2 with
        | Parent.mk n2 m2 u2 => recPath par fuel (n2, m2, u2)
        | Parent.unset => recPath par fuel (MAX_CHARACTER, Mode.kanji, 2))

/-- `_reconstruct_path`: follow parent pointers from the best index down to
position 0, then reverse into forward order. -/
def reconstructPath (par : Nat → PRow) (idx : Nat × Mode × Fin 3) :
    List (Nat × Mode × Fin 3) :=
  (recPath par idx.1 idx).reverse

/-- The loop body of `_compute_segments`: the accumulator carries the
emitted segments, the data of the running segment, and its mode (`none`
standing for the initial `current_mode = -1`). -/
def segFold (data : List Char) (acc : List Segment × List Char × Option Mode)
    (p : Nat × Mode × Fin 3) : List Segment × List Char × Option Mode :=
  match acc.2.2 with
  | none => (acc.1, acc.2.1 ++ [data.getD (p.1 - 1) default], some p.2.1)
  | some cm =>
    if p.2.1 = cm then (acc.1, acc.2.1 ++ [data.getD (p.1 - 1) default], some cm)
    else (acc.1 ++ [⟨acc.2.1, cm⟩], [data.getD (p.1 - 1) default], some p.2.1)

/-- `_compute_segments`: walk the path merging adjacent same-mode
positions, flushing the last running segment at the end. -/
def computeSegments (path : List (Nat × Mode × Fin 3)) (data : List Char) : List Segment :=
  let st := path.foldl (segFold data) ([], [], none)
  match st.2.2 with
  | none => st.1
  | some cm => st.1 ++ [⟨st.2.1, cm⟩]

/-- `SegmentOptimizer.compute` on an instance whose tables are `t`: raise
(`Except.error`) for over-long input before touching the tables, run the
DP, raise if the best cost exceeds the capacity, otherwise reconstruct and
merge. The returned tables are the instance state after the call. The
`none` index case is unreachable whenever the capacity is below `INF`
(`findBest` then guarantees a set index); it is given the value
`Except.ok []` here. -/
def compute (env : Env) (data : List Char) (t : Tables) :
    Except RmqrError (List Segment) × Tables :=
  if data.length > MAX_CHARACTER then (Except.error RmqrError.dataTooLongError, t)
  else
    let t2 := computeCosts env data t
    let best := findBest (t2.dp data.length) data.length
    if best.cost > env.numDataBits then (Except.error RmqrError.dataTooLongError, t2)
    else
      match best.index with
      | some idx => (Except.ok (computeSegments (reconstructPath t2.parents idx) data), t2)
      | none => (Except.ok [], t2)

/-! ### Payload arithmetic -/

theorem numericPayload_succ (k : Nat) :
    numericPayload (k + 1) = numericPayload k + (if k % 3 = 0 then 4 else 3) := by
  unfold numericPayload; split_ifs <;> omega

theorem alphanumericPayload_succ (k : Nat) :
    alphanumericPayload (k + 1) = alphanumericPayload k + (if k % 2 = 0 then 6 else 5) := by
  unfold alphanumericPayload; split_ifs <;> omega

theorem numericPayload_subadd (a b : Nat) :
    numericPayload (a + b) ≤ numericPayload a + numericPayload b := by
  unfold numericPayload; split_ifs <;> omega

theorem alphanumericPayload_subadd (a b : Nat) :
    alphanumericPayload (a + b) ≤ alphanumericPayload a + alphanumericPayload b := by
  unfold alphanumericPayload; split_ifs <;> omega

theorem numericPayload_mono {a b : Nat} (h : a ≤ b) :
    numericPayload a ≤ numericPayload b := by
  unfold numericPayload; split_ifs <;> omega

theorem alphanumericPayload_mono {a b : Nat} (h : a ≤ b) :
    alphanumericPayload a ≤ alphanumericPayload b := by
  unfold alphanumericPayload; split_ifs <;> omega

theorem numericPayload_le (k : Nat) : numericPayload k ≤ 4 * k := by
  unfold numericPayload; split_ifs <;> omega

theorem alphanumericPayload_le (k : Nat) : alphanumericPayload k ≤ 6 * k := by
  unfold alphanumericPayload; split_ifs <;> omega

theorem numericPayload_lt_alphanumeric {k : Nat} (h : 1 ≤ k) :
    numericPayload k + 2 ≤ alphanumericPayload k := by
  unfold numericPayload alphanumericPayload; split_ifs <;> omega

theorem numericPayload_lt_byte {k : Nat} (h : 1 ≤ k) :
    numericPayload k + 4 ≤ 8 * k := by
  unfold numericPayload; split_ifs <;> omega

theorem utf8Size_le_four (c : Char) : c.utf8Size ≤ 4 := by
  unfold Char.utf8Size
  dsimp only
  split_ifs <;> omega

theorem utf8Size_pos (c : Char) : 1 ≤ c.utf8Size := by
  unfold Char.utf8Size
  dsimp only
  split_ifs <;> omega

theorem utf8Len_append (s t : List Char) : utf8Len (s ++ t) = utf8Len s + utf8Len t := by
  unfold utf8Len; simp

theorem utf8Len_le (s : List Char) : utf8Len s ≤ 4 * s.length := by
  induction s with
  | nil => simp [utf8Len]
  | cons c s ih =>
    have h := utf8Size_le_four c
    simp only [utf8Len, List.map_cons, List.sum_cons, List.length_cons] at *
    omega

/-! ### The first-strict-minimum fold -/

theorem firstMinFold_spec (l : List α) (f : α → Nat) (g : α → β) (acc : Nat × Option β) :
    (firstMinFold l f g acc = acc ∧ ∀ x ∈ l, acc.1 ≤ f x) ∨
    (∃ l₁ x l₂, l = l₁ ++ x :: l₂ ∧ firstMinFold l f g acc = (f x, some (g x)) ∧
      f x < acc.1 ∧ (∀ y ∈ l₁, f x < f y) ∧ (∀ y ∈ l₂, f x ≤ f y)) := by
  induction l generalizing acc with
  | nil => exact Or.inl ⟨rfl, by simp⟩
  | cons x0 l ih =>
    by_cases h : f x0 < acc.1
    · have hstep : firstMinFold (x0 :: l) f g acc = firstMinFold l f g (f x0, some (g x0)) := by
        simp [firstMinFold, List.foldl_cons, h]
      rcases ih (f x0, some (g x0)) with ⟨heq, hall⟩ | ⟨l₁, x, l₂, hdec, heq, hlt, h₁, h₂⟩
      · exact Or.inr ⟨[], x0, l, by simp, by rw [hstep, heq], h, by simp, hall⟩
      · refine Or.inr ⟨x0 :: l₁, x, l₂, by simp [hdec], by rw [hstep, heq],
          lt_trans hlt h, ?_, h₂⟩
        intro y hy
        rcases List.mem_cons.mp hy with rfl | hy
        · exact hlt
        · exact h₁ y hy
    · have hstep : firstMinFold (x0 :: l) f g acc = firstMinFold l f g acc := by
        simp [firstMinFold, List.foldl_cons, h]
      rcases ih acc with ⟨heq, hall⟩ | ⟨l₁, x, l₂, hdec, heq, hlt, h₁, h₂⟩
      · refine Or.inl ⟨by rw [hstep, heq], ?_⟩
        intro y hy
        rcases List.mem_cons.mp hy with rfl | hy
        · omega
        · exact hall y hy
      · refine Or.inr ⟨x0 :: l₁, x, l₂, by simp [hdec], by rw [hstep, heq], hlt, ?_, h₂⟩
        intro y hy
        rcases List.mem_cons.mp hy with rfl | hy
        · omega
        · exact h₁ y hy

theorem stateList_mem (m : Mode) (u : Fin 3) : (m, u) ∈ stateList := by
  revert m u; decide

theorem stateList_pairwise :
    stateList.Pairwise (fun a b => 3 * a.1.idx + a.2.val < 3 * b.1.idx + b.2.val) := by
  decide

/-- The cost reported by `_find_best` is a lower bound on every terminal
cell of the final DP row. -/
theorem findBest_le (row : Row) (L : Nat) (m : Mode) (u : Fin 3) :
    (findBest row L).cost ≤ row m u := by
  rcases firstMinFold_spec stateList (fun s => row s.1 s.2)
      (fun s => (L, s.1, s.2)) (INF, none) with ⟨heq, hall⟩ | ⟨l₁, x, l₂, hdec, heq, hlt, h₁, h₂⟩
  · have h2 := hall (m, u) (stateList_mem m u)
    have h3 : (findBest row L).cost = INF := by simp only [findBest, heq]
    rw [h3]; exact h2
  · have hmem : (m, u) ∈ stateList := stateList_mem m u
    rw [hdec] at hmem
    have h3 : (findBest row L).cost = row x.1 x.2 := by simp only [findBest, heq]
    rw [h3]
    rcases List.mem_append.mp hmem with hy | hy
    · exact le_of_lt (h₁ _ hy)
    · rcases List.mem_cons.mp hy with rfl | hy
      · exact le_refl _

      · exact h₂ _ hy

theorem findBest_le_INF (row : Row) (L : Nat) : (findBest row L).cost ≤ INF := by
  rcases firstMinFold_spec stateList (fun s => row s.1 s.2)
      (fun s => (L, s.1, s.2)) (INF, none) with ⟨heq, _⟩ | ⟨l₁, x, l₂, _, heq, hlt, _, _⟩
  · simp only [findBest, heq]
    exact le_refl _
  · simp only [findBest, heq]
    omega

/-- When the minimum is below `INF`, `_find_best` returns a set index, that
index attains the minimum, and it is the first state attaining it in the
scan order `3 * mode + unfilled_length` (smallest mode index first, then
smallest unfilled length within that mode). -/
theorem findBest_argmin (row : Row) (L : Nat) (h : (findBest row L).cost < INF) :
    ∃ m u, (findBest row L).index = some (L, m, u) ∧
      row m u = (findBest row L).cost ∧
      ∀ m2 u2, row m2 u2 = (findBest row L).cost →
        3 * m.idx + u.val ≤ 3 * m2.idx + u2.val := by
  rcases firstMinFold_spec stateList (fun s => row s.1 s.2)
      (fun s => (L, s.1, s.2)) (INF, none) with ⟨heq, _⟩ | ⟨l₁, x, l₂, hdec, heq, hlt, h₁, h₂⟩
  · rw [findBest, heq] at h
    exact absurd h (lt_irrefl _)
  · refine ⟨x.1, x.2, ?_, ?_, ?_⟩
    · simp only [findBest, heq]
    · simp only [findBest, heq]
    · intro m2 u2 hval
      simp only [findBest, heq] at hval
      have hmem : (m2, u2) ∈ stateList := stateList_mem m2 u2
      rw [hdec] at hmem
      rcases List.mem_append.mp hmem with hy | hy
      · have h4 := h₁ (m2, u2) hy
        dsimp only at h4
        omega
      · have hpw := stateList_pairwise
        rw [hdec] at hpw
        have hx := (List.pairwise_append.mp hpw).2.1
        rcases List.mem_cons.mp hy with hxy | hy
        · subst hxy
          simp
        · have h4 := (List.pairwise_cons.mp hx).1 (m2, u2) hy
          dsimp only at h4
          omega

theorem findBest_index_none (row : Row) (L : Nat) (h : ¬ (findBest row L).cost < INF) :
    (findBest row L).cost = INF ∧ (findBest row L).index = none := by
  rcases firstMinFold_spec stateList (fun s => row s.1 s.2)
      (fun s => (L, s.1, s.2)) (INF, none) with ⟨heq, _⟩ | ⟨l₁, x, l₂, _, heq, hlt, _, _⟩
  · constructor <;> simp only [findBest, heq]
  · exfalso
    apply h
    simp only [findBest, heq]
    omega

/-! ### Relaxation lemmas -/

theorem relaxStep_dp_le (env : Env) (n : Nat) (c : Char) (cur : Row) (acc : Row × PRow)
    (cand : (Mode × Fin 3) × Mode) (nm : Mode) (nu : Fin 3) :
    (relaxStep env n c cur acc cand).1 nm nu ≤ acc.1 nm nu := by
  unfold relaxStep
  dsimp only
  split_ifs with h1 h2 h3
  · exact le_refl _
  · unfold setCell
    dsimp only
    by_cases h4 : nm = cand.2 ∧ nu = (transitionOf env c cand.1.1 cand.1.2 cand.2).2
    · rw [if_pos h4]
      rcases h4 with ⟨rfl, rfl⟩
      omega
    · rw [if_neg h4]
  · exact le_refl _
  · exact le_refl _

/-- After one relaxation step at its own candidate, the target cell is at
most the candidate value (updated to it, or already at least as small). -/
theorem relaxStep_self (env : Env) (n : Nat) (c : Char) (cur : Row) (acc : Row × PRow)
    (cand : (Mode × Fin 3) × Mode) (h1 : cur cand.1.1 cand.1.2 ≠ INF)
    (h2 : isValidChar env cand.2 c = true) :
    (relaxStep env n c cur acc cand).1 cand.2 (transitionOf env c cand.1.1 cand.1.2 cand.2).2 ≤
      cur cand.1.1 cand.1.2 + (transitionOf env c cand.1.1 cand.1.2 cand.2).1 := by
  unfold relaxStep
  dsimp only
  rw [if_neg h1, if_pos h2]
  by_cases h3 : cur cand.1.1 cand.1.2 + (transitionOf env c cand.1.1 cand.1.2 cand.2).1 <
      acc.1 cand.2 (transitionOf env c cand.1.1 cand.1.2 cand.2).2
  · rw [if_pos h3]
    unfold setCell
    dsimp only
    rw [if_pos ⟨rfl, rfl⟩]
  · rw [if_neg h3]
    omega

/-- Cases of one relaxation step at an arbitrary cell: untouched (cost and
parent both), or overwritten together with a legal source. -/
theorem relaxStep_cases (env : Env) (n : Nat) (c : Char) (cur : Row) (acc : Row × PRow)
    (cand : (Mode × Fin 3) × Mode) (nm : Mode) (nu : Fin 3) :
    ((relaxStep env n c cur acc cand).1 nm nu = acc.1 nm nu ∧
      (relaxStep env n c cur acc cand).2 nm nu = acc.2 nm nu) ∨
    (∃ m u, cur m u ≠ INF ∧ isValidChar env nm c = true ∧
      (transitionOf env c m u nm).2 = nu ∧
      (relaxStep env n c cur acc cand).1 nm nu = cur m u + (transitionOf env c m u nm).1 ∧
      (relaxStep env n c cur acc cand).2 nm nu = Parent.mk n m u) := by
  unfold relaxStep
  dsimp only
  split_ifs with h1 h2 h3
  · exact Or.inl ⟨rfl, rfl⟩
  · by_cases h4 : nm = cand.2 ∧ nu = (transitionOf env c cand.1.1 cand.1.2 cand.2).2
    · rcases h4 with ⟨rfl, rfl⟩
      refine Or.inr ⟨cand.1.1, cand.1.2, h1, h2, rfl, ?_, ?_⟩ <;>
        · unfold setCell
          dsimp only
          rw [if_pos ⟨rfl, rfl⟩]
    · refine Or.inl ⟨?_, ?_⟩ <;>
        · unfold setCell
          dsimp only
          rw [if_neg h4]
  · exact Or.inl ⟨rfl, rfl⟩
  · exact Or.inl ⟨rfl, rfl⟩

theorem relaxFold_dp_le (env : Env) (n : Nat) (c : Char) (cur : Row)
    (l : List ((Mode × Fin 3) × Mode)) (acc : Row × PRow) (nm : Mode) (nu : Fin 3) :
    (l.foldl (relaxStep env n c cur) acc).1 nm nu ≤ acc.1 nm nu := by
  induction l generalizing acc with
  | nil => exact le_refl _
  | cons x l ih =>
    rw [List.foldl_cons]
    exact le_trans (ih (relaxStep env n c cur acc x)) (relaxStep_dp_le env n c cur acc x nm nu)

theorem relaxFold_le_cand (env : Env) (n : Nat) (c : Char) (cur : Row)
    (l : List ((Mode × Fin 3) × Mode)) (acc : Row × PRow)
    (cand : (Mode × Fin 3) × Mode) (hmem : cand ∈ l)
    (h1 : cur cand.1.1 cand.1.2 ≠ INF) (h2 : isValidChar env cand.2 c = true) :
    (l.foldl (relaxStep env n c cur) acc).1 cand.2
        (transitionOf env c cand.1.1 cand.1.2 cand.2).2 ≤
      cur cand.1.1 cand.1.2 + (transitionOf env c cand.1.1 cand.1.2 cand.2).1 := by
  induction l generalizing acc with
  | nil => exact absurd hmem (List.not_mem_nil cand)
  | cons x l ih =>
    rw [List.foldl_cons]
    rcases List.mem_cons.mp hmem with rfl | hmem2
    · exact le_trans (relaxFold_dp_le env n c cur l (relaxStep env n c cur acc cand) _ _)
        (relaxStep_self env n c cur acc cand h1 h2)
    · exact ih (relaxStep env n c cur acc x) hmem2

theorem relaxFold_cases (env : Env) (n : Nat) (c : Char) (cur : Row)
    (l : List ((Mode × Fin 3) × Mode)) (acc : Row × PRow) (nm : Mode) (nu : Fin 3) :
    ((l.foldl (relaxStep env n c cur) acc).1 nm nu = acc.1 nm nu ∧
      (l.foldl (relaxStep env n c cur) acc).2 nm nu = acc.2 nm nu) ∨
    (∃ m u, cur m u ≠ INF ∧ isValidChar env nm c = true ∧
      (transitionOf env c m u nm).2 = nu ∧
      (l.foldl (relaxStep env n c cur) acc).1 nm nu = cur m u + (transitionOf env c m u nm).1 ∧
      (l.foldl (relaxStep env n c cur) acc).2 nm nu = Parent.mk n m u) := by
  induction l generalizing acc with
  | nil => exact Or.inl ⟨rfl, rfl⟩
  | cons x l ih =>
    rw [List.foldl_cons]
    rcases ih (relaxStep env n c cur acc x) with ⟨he1, he2⟩ | hupd
    · rcases relaxStep_cases env n c cur acc x nm nu with ⟨hs1, hs2⟩ | hupd
      · exact Or.inl ⟨he1.trans hs1, he2.trans hs2⟩
      · rcases hupd with ⟨m, u, hm1, hm2, hm3, hm4, hm5⟩
        exact Or.inr ⟨m, u, hm1, hm2, hm3, he1.trans hm4, he2.trans hm5⟩
    · exact Or.inr hupd

/-! ### Row stability of the DP loop -/

theorem costsUpTo_untouched (env : Env) (data : List Char) (t0 : Tables) (j k : Nat)
    (h : j < k) :
    (costsUpTo env data t0 j).dp k = t0.dp k ∧
      (costsUpTo env data t0 j).parents k = t0.parents k := by
  induction j with
  | zero =>
    unfold costsUpTo baseSetup
    constructor <;>
      exact Function.update_noteq (by omega) _ _
  | succ j ih =>
    unfold costsUpTo stepTable
    dsimp only
    rw [Function.update_noteq (by omega), Function.update_noteq (by omega)]
    exact ih (by omega)

theorem costsUpTo_stable (env : Env) (data : List Char) (t0 : Tables) (j k : Nat)
    (h : k ≤ j) :
    (costsUpTo env data t0 j).dp k = (costsUpTo env data t0 k).dp k ∧
      (costsUpTo env data t0 j).parents k = (costsUpTo env data t0 k).parents k := by
  induction j with
  | zero =>
    have : k = 0 := by omega
    subst this
    exact ⟨rfl, rfl⟩
  | succ j ih =>
    by_cases hk : k = j + 1
    · subst hk
      exact ⟨rfl, rfl⟩
    · have hkj : k ≤ j := by omega
      have hstep : (costsUpTo env data t0 (j + 1)).dp k = (costsUpTo env data t0 j).dp k ∧
          (costsUpTo env data t0 (j + 1)).parents k = (costsUpTo env data t0 j).parents k := by
        show (stepTable env data (costsUpTo env data t0 j) j).dp k = _ ∧
          (stepTable env data (costsUpTo env data t0 j) j).parents k = _
        unfold stepTable
        dsimp only
        rw [Function.update_noteq (by omega), Function.update_noteq (by omega)]
        exact ⟨rfl, rfl⟩
      exact ⟨hstep.1.trans (ih hkj).1, hstep.2.trans (ih hkj).2⟩

theorem costsUpTo_row_zero (env : Env) (data : List Char) (t0 : Tables) (j : Nat)
    (m : Mode) (u : Fin 3) :
    (costsUpTo env data t0 j).dp 0 m u = (if u = 0 then encLength env m [] else t0.dp 0 m u) ∧
      (costsUpTo env data t0 j).parents 0 m u =
        (if u = 0 then Parent.mk 0 Mode.numeric 0 else t0.parents 0 m u) := by
  have hs := costsUpTo_stable env data t0 j 0 (by omega)
  rw [hs.1, hs.2]
  unfold costsUpTo baseSetup
  constructor <;>
    · dsimp only
      rw [Function.update_same]

theorem costsUpTo_row_succ (env : Env) (data : List Char) (t0 : Tables) (k : Nat) :
    (costsUpTo env data t0 (k + 1)).dp (k + 1) =
      (relaxRow env k (data.getD k default) ((costsUpTo env data t0 k).dp k)
        (t0.dp (k + 1), t0.parents (k + 1))).1 ∧
    (costsUpTo env data t0 (k + 1)).parents (k + 1) =
      (relaxRow env k (data.getD k default) ((costsUpTo env data t0 k).dp k)
        (t0.dp (k + 1), t0.parents (k + 1))).2 := by
  have hu := costsUpTo_untouched env data t0 k (k + 1) (by omega)
  constructor
  · show (stepTable env data (costsUpTo env data t0 k) k).dp (k + 1) = _
    unfold stepTable
    dsimp only
    rw [Function.update_same, hu.1, hu.2]
  · show (stepTable env data (costsUpTo env data t0 k) k).parents (k + 1) = _
    unfold stepTable
    dsimp only
    rw [Function.update_same, hu.1, hu.2]

/-! ### Transition and phase facts -/

/-- The canonical `unfilled_length` after a group of `k` characters of one
mode: `k mod 3` for Numeric, `k mod 2` for Alphanumeric, `0` otherwise. -/
def phaseFin (m : Mode) (k : Nat) : Fin 3 :=
  match m with
  | .numeric => ⟨k % 3, by omega⟩
  | .alphanumeric => ⟨k % 2, by omega⟩
  | .byte => 0
  | .kanji => 0

theorem phaseFin_zero (m : Mode) : phaseFin m 0 = 0 := by
  cases m <;> rfl

theorem encPayload_nil (m : Mode) : encPayload m [] = 0 := by
  cases m <;> simp [encPayload, numericPayload, alphanumericPayload, utf8Len]

theorem encLength_nil (env : Env) (m : Mode) : encLength env m [] = 3 + env.ciw m := by
  unfold encLength
  rw [encPayload_nil]
  omega

theorem switch_state (env : Env) (c : Char) (m : Mode) :
    (compute_new_state_with_mode_changing env c m).1 = encLength env m [c] ∧
    (compute_new_state_with_mode_changing env c m).2 = phaseFin m 1 := by
  cases m <;> exact ⟨rfl, by apply Fin.ext <;> rfl⟩

theorem cont_splice (env : Env) (c : Char) (m : Mode) (s : List Char) :
    encLength env m (s ++ [c]) =
      encLength env m s + (compute_new_state_without_mode_changing c m (phaseFin m s.length)).1 ∧
    (compute_new_state_without_mode_changing c m (phaseFin m s.length)).2 =
      phaseFin m (s.length + 1) := by
  cases m
  case numeric =>
    constructor
    · simp only [encLength, encPayload, compute_new_state_without_mode_changing, phaseFin,
        List.length_append, List.length_cons, List.length_nil]
      rw [numericPayload_succ]
      by_cases h0 : s.length % 3 = 0 <;> simp [h0] <;> omega
    · show (⟨(s.length % 3 + 1) % 3, by omega⟩ : Fin 3) = ⟨(s.length + 1) % 3, by omega⟩
      apply Fin.ext
      show (s.length % 3 + 1) % 3 = (s.length + 1) % 3
      omega
  case alphanumeric =>
    constructor
    · simp only [encLength, encPayload, compute_new_state_without_mode_changing, phaseFin,
        List.length_append, List.length_cons, List.length_nil]
      rw [alphanumericPayload_succ]
      by_cases h0 : s.length % 2 = 0 <;> simp [h0] <;> omega
    · show (⟨(s.length % 2 + 1) % 2, by omega⟩ : Fin 3) = ⟨(s.length + 1) % 2, by omega⟩
      apply Fin.ext
      show (s.length % 2 + 1) % 2 = (s.length + 1) % 2
      omega
  case byte =>
    constructor
    · simp only [encLength, encPayload, compute_new_state_without_mode_changing,
        utf8Len_append]
      simp [utf8Len]
      omega
    · rfl
  case kanji =>
    constructor
    · simp only [encLength, encPayload, compute_new_state_without_mode_changing,
        List.length_append, List.length_cons, List.length_nil]
      omega
    · rfl

theorem cont_from_zero (env : Env) (c : Char) (m : Mode) :
    (compute_new_state_without_mode_changing c m 0).1 = encPayload m [c] ∧
    (compute_new_state_without_mode_changing c m 0).2 = phaseFin m 1 := by
  have h := cont_splice env c m []
  simp only [List.length_nil] at h
  rw [phaseFin_zero] at h
  refine ⟨?_, by simpa using h.2⟩
  have h1 := h.1
  simp only [List.nil_append, List.length_nil] at h1
  rw [encLength_nil] at h1
  unfold encLength at h1
  omega

theorem cont_le_32 (c : Char) (m : Mode) (u : Fin 3) :
    (compute_new_state_without_mode_changing c m u).1 ≤ 32 := by
  have h4 := utf8Size_le_four c
  cases m <;> simp only [compute_new_state_without_mode_changing] <;>
    first
    | (split_ifs <;> omega)
    | omega

theorem encPayload_le (m : Mode) (s : List Char) : encPayload m s ≤ 32 * s.length := by
  have h1 := numericPayload_le s.length
  have h2 := alphanumericPayload_le s.length
  have h3 := utf8Len_le s
  cases m <;> simp only [encPayload] <;> omega

theorem encLength_le (env : Env) (m : Mode) (s : List Char) (Hciw : env.ciw m ≤ 16) :
    encLength env m s ≤ 19 + 32 * s.length := by
  have := encPayload_le m s
  unfold encLength
  omega

/-! ### List helpers -/

theorem take_succ_getD (l : List α) (n : Nat) (h : n < l.length) (d : α) :
    l.take (n + 1) = l.take n ++ [l.getD n d] := by
  induction l generalizing n with
  | nil => simp at h
  | cons x l ih =>
    cases n with
    | zero => simp
    | succ n =>
      simp only [List.length_cons] at h
      simp only [List.take_succ_cons, List.getD_cons_succ, List.cons_append]
      rw [ih n (by omega)]

theorem drop_cons_facts (l : List α) (pos : Nat) (c : α) (r : List α) (d : α)
    (h : l.drop pos = c :: r) :
    l.getD pos d = c ∧ l.drop (pos + 1) = r ∧ pos < l.length := by
  induction l generalizing pos with
  | nil => simp at h
  | cons x l ih =>
    cases pos with
    | zero =>
      simp only [List.drop_zero] at h
      cases h
      refine ⟨rfl, by simp, by simp⟩
    | succ pos =>
      simp only [List.drop_succ_cons] at h
      have := ih pos h
      refine ⟨by simpa using this.1, by simpa using this.2.1, by simp; omega⟩

theorem drop_append_of_drop (l : List α) (pos : Nat) (s t : List α)
    (h : l.drop pos = s ++ t) : l.drop (pos + s.length) = t := by
  induction s generalizing pos with
  | nil => simpa using h
  | cons c s ih =>
    have hf := drop_cons_facts l pos c (s ++ t) c (by simpa using h)
    have := ih (pos + 1) hf.2.1
    simpa [Nat.add_assoc, Nat.add_comm 1 s.length] using this

theorem joinData_append (l1 l2 : List Segment) :
    joinData (l1 ++ l2) = joinData l1 ++ joinData l2 := by
  simp [joinData]

theorem compute_length_append (env : Env) (l1 l2 : List Segment) :
    compute_length env (l1 ++ l2) = compute_length env l1 + compute_length env l2 := by
  simp [compute_length]

/-! ### Bound of the fresh DP table -/

theorem costsUpTo_succ_other (env : Env) (data : List Char) (t0 : Tables) (j n : Nat)
    (h : n ≠ j + 1) :
    (costsUpTo env data t0 (j + 1)).dp n = (costsUpTo env data t0 j).dp n ∧
      (costsUpTo env data t0 (j + 1)).parents n = (costsUpTo env data t0 j).parents n := by
  show (stepTable env data (costsUpTo env data t0 j) j).dp n = _ ∧
    (stepTable env data (costsUpTo env data t0 j) j).parents n = _
  unfold stepTable
  dsimp only
  rw [Function.update_noteq h, Function.update_noteq h]
  exact ⟨rfl, rfl⟩

theorem costsUpTo_dp_le_INF (env : Env) (data : List Char)
    (Hciw : ∀ m, env.ciw m ≤ 16) (j n : Nat) (m : Mode) (u : Fin 3) :
    (costsUpTo env data initTables j).dp n m u ≤ INF := by
  induction j with
  | zero =>
    by_cases hn : n = 0
    · subst hn
      rw [(costsUpTo_row_zero env data initTables 0 m u).1]
      have := Hciw m
      have he := encLength_nil env m
      split_ifs
      · unfold INF
        omega
      · exact le_refl _
    · rw [(costsUpTo_untouched env data initTables 0 n (by omega)).1]
      exact le_refl _
  | succ j ih =>
    by_cases hn : n = j + 1
    · subst hn
      rw [(costsUpTo_row_succ env data initTables j).1]
      refine le_trans (relaxFold_dp_le env j _ _ candList _ m u) ?_
      exact le_refl _
    · rw [(costsUpTo_succ_other env data initTables j n hn).1]
      exact ih

/-! ### Soundness of the DP table: every finite cell is realized by the
segments its parent chain reconstructs -/

theorem candList_mem (m : Mode) (u : Fin 3) (nm : Mode) : ((m, u), nm) ∈ candList := by
  revert m u nm
  decide

theorem transitionOf_same (env : Env) (c : Char) (m : Mode) (u : Fin 3) :
    transitionOf env c m u m = compute_new_state_without_mode_changing c m u := by
  unfold transitionOf
  rw [if_pos rfl]

theorem transitionOf_diff (env : Env) (c : Char) (m : Mode) (u : Fin 3) (nm : Mode)
    (h : nm ≠ m) :
    transitionOf env c m u nm = compute_new_state_with_mode_changing env c nm := by
  unfold transitionOf
  rw [if_neg h]

/-- Invariant of the accumulator of `_compute_segments` along a
reconstructed optimal path: the running segment has the cell mode, the
emitted and running data concatenate to the consumed input prefix, all
characters are valid for their segment modes, the cell cost accounts
exactly for the emitted segments plus the running one, and the cell
`unfilled_length` is the canonical phase of the running group. -/
def GoodAcc (env : Env) (data : List Char) (n : Nat) (m : Mode) (u : Fin 3)
    (acc : List Segment × List Char × Option Mode) (cost : Nat) : Prop :=
  acc.2.2 = some m ∧ acc.2.1 ≠ [] ∧
  joinData acc.1 ++ acc.2.1 = data.take n ∧
  (∀ s ∈ acc.1, s.data ≠ [] ∧ ∀ c ∈ s.data, isValidChar env s.encoder_class c = true) ∧
  (∀ c ∈ acc.2.1, isValidChar env m c = true) ∧
  cost = compute_length env acc.1 + encLength env m acc.2.1 ∧
  u = phaseFin m acc.2.1.length

theorem dp_sound (env : Env) (data : List Char) (Hciw : ∀ m, env.ciw m ≤ 16) :
    ∀ n, n ≤ data.length → ∀ m u,
      (computeCosts env data initTables).dp n m u ≠ INF →
      (n = 0 → u = 0 ∧ (computeCosts env data initTables).dp n m u = encLength env m []) ∧
      (n ≠ 0 → GoodAcc env data n m u
          ((recPath (computeCosts env data initTables).parents n (n, m, u)).reverse.foldl
            (segFold data) ([], [], none))
          ((computeCosts env data initTables).dp n m u)) := by
  intro n
  induction n with
  | zero =>
    intro hn m u hfin
    refine ⟨fun _ => ?_, fun h0 => absurd rfl h0⟩
    have hz := (costsUpTo_row_zero env data initTables data.length m u).1
    unfold computeCosts at hfin ⊢
    rw [hz] at hfin ⊢
    by_cases hu : u = 0
    · subst hu
      simp
    · rw [if_neg hu] at hfin
      exact absurd rfl hfin
  | succ n ih =>
    intro hn m u hfin
    refine ⟨fun h0 => absurd h0 (Nat.succ_ne_zero n), fun _ => ?_⟩
    have hnL : n ≤ data.length := by omega
    -- Bridge the final table rows to the loop-time rows.
    have hstab1 := costsUpTo_stable env data initTables data.length (n + 1) hn
    have hstabn := costsUpTo_stable env data initTables data.length n hnL
    have hrec := costsUpTo_row_succ env data initTables n
    unfold relaxRow at hrec
    have hdprow : (computeCosts env data initTables).dp (n + 1) =
        (candList.foldl
          (relaxStep env n (data.getD n default) ((costsUpTo env data initTables n).dp n))
          (initTables.dp (n + 1), initTables.parents (n + 1))).1 := by
      show (costsUpTo env data initTables data.length).dp (n + 1) = _
      rw [hstab1.1, hrec.1]
    have hparrow : (computeCosts env data initTables).parents (n + 1) =
        (candList.foldl
          (relaxStep env n (data.getD n default) ((costsUpTo env data initTables n).dp n))
          (initTables.dp (n + 1), initTables.parents (n + 1))).2 := by
      show (costsUpTo env data initTables data.length).parents (n + 1) = _
      rw [hstab1.2, hrec.2]
    have hcurdp : (computeCosts env data initTables).dp n =
        (costsUpTo env data initTables n).dp n := by
      show (costsUpTo env data initTables data.length).dp n = _
      exact hstabn.1
    rcases relaxFold_cases env n (data.getD n default) ((costsUpTo env data initTables n).dp n)
        candList (initTables.dp (n + 1), initTables.parents (n + 1)) m u with
      ⟨hv, _⟩ | ⟨m2, u2, hm1, hm2, hm3, hm4, hm5⟩
    · exfalso
      apply hfin
      rw [hdprow, hv]
      rfl
    · -- The parent chain extends by one step.
      have hpcell : (computeCosts env data initTables).parents (n + 1) m u = Parent.mk n m2 u2 := by
        rw [hparrow]
        exact hm5
      have hval : (computeCosts env data initTables).dp (n + 1) m u =
          (costsUpTo env data initTables n).dp n m2 u2 +
            (transitionOf env (data.getD n default) m2 u2 m).1 := by
        rw [hdprow]
        exact hm4
      have hpath : recPath (computeCosts env data initTables).parents (n + 1) (n + 1, m, u) =
          (n + 1, m, u) :: recPath (computeCosts env data initTables).parents n (n, m2, u2) := by
        show (if n + 1 = 0 then [] else _) = _
        rw [if_neg (Nat.succ_ne_zero n)]
        have : (computeCosts env data initTables).parents (n + 1, m, u).1 (n + 1, m, u).2.1
            (n + 1, m, u).2.2 = Parent.mk n m2 u2 := hpcell
        rw [this]
      rw [hpath, List.reverse_cons, List.foldl_append, List.foldl_cons, List.foldl_nil]
      -- Case on whether the source row is the base row.
      by_cases hn0 : n = 0
      · subst hn0
        -- Source row 0: the source state is `(m2, 0)` with the base cost.
        have hz2 := (costsUpTo_row_zero env data initTables 0 m2 u2).1
        have hu2 : u2 = 0 := by
          by_cases hu2 : u2 = 0
          · exact hu2
          · exfalso
            apply hm1
            rw [hz2, if_neg hu2]
            rfl
        subst hu2
        have hbase : (costsUpTo env data initTables 0).dp 0 m2 0 = encLength env m2 [] := by
          rw [hz2]
          simp
        -- The parent must be a same-mode continuation: a switch from another
        -- base cell is strictly beaten by the continuation from `(m, 0)`.
        have hm2m : m2 = m := by
          by_contra hne
          have hbasem : (costsUpTo env data initTables 0).dp 0 m 0 = encLength env m [] := by
            rw [(costsUpTo_row_zero env data initTables 0 m 0).1]
            simp
          have hfinm : (costsUpTo env data initTables 0).dp 0 m 0 ≠ INF := by
            rw [hbasem, encLength_nil]
            have := Hciw m
            unfold INF
            omega
          have hcand := relaxFold_le_cand env 0 (data.getD 0 default)
            ((costsUpTo env data initTables 0).dp 0) candList
            (initTables.dp (0 + 1), initTables.parents (0 + 1)) ((m, 0), m)
            (candList_mem m 0 m) hfinm hm2
          dsimp only at hcand
          rw [transitionOf_same] at hcand
          have hc0 := cont_from_zero env (data.getD 0 default) m
          rw [hc0.1, hc0.2, hbasem] at hcand
          -- the switch value stored in the cell
          have hsw := transitionOf_diff env (data.getD 0 default) m2 0 m (fun h => hne h.symm)
          have hss := switch_state env (data.getD 0 default) m
          have hphase : (transitionOf env (data.getD 0 default) m2 0 m).2 = phaseFin m 1 := by
            rw [hsw]
            exact hss.2
          have hcost : (transitionOf env (data.getD 0 default) m2 0 m).1 =
              encLength env m [data.getD 0 default] := by
            rw [hsw]
            exact hss.1
          have hucell : u = phaseFin m 1 := by rw [← hm3, hphase]
          have hle : (computeCosts env data initTables).dp (0 + 1) m u ≤
              encLength env m [] + encPayload m [data.getD 0 default] := by
            rw [hdprow, hucell]
            exact hcand
          rw [hval, hbase, hcost] at hle
          rw [encLength_nil, encLength_nil] at hle
          unfold encLength at hle
          omega
        subst hm2m
        -- Now the first character extends the base cell of its own mode.
        have hcostc : (transitionOf env (data.getD 0 default) m2 0 m2).1 =
            encPayload m2 [data.getD 0 default] := by
          rw [transitionOf_same]
          exact (cont_from_zero env (data.getD 0 default) m2).1
        have hphasec : u = phaseFin m2 1 := by
          rw [← hm3, transitionOf_same]
          exact (cont_from_zero env (data.getD 0 default) m2).2
        show GoodAcc env data 1 m2 u
          (segFold data ([], [], none) (1, m2, u)) ((computeCosts env data initTables).dp 1 m2 u)
        show GoodAcc env data 1 m2 u ([], [data.getD 0 default], some m2) _
        refine ⟨rfl, by simp, ?_, by simp, ?_, ?_, ?_⟩
        · have ht := take_succ_getD data 0 (by omega) default
          simp only [List.take_zero, List.nil_append] at ht
          simp [joinData, ht]
        · intro x hx
          rcases List.mem_singleton.mp hx with rfl
          exact hm2
        · rw [hval, hbase, hcostc]
          simp only [compute_length, List.map_nil, List.sum_nil, Nat.zero_add]
          rw [encLength_nil]
          unfold encLength
          omega
        · simpa using hphasec
      · -- Source row `n ≥ 1`: apply the invariant to the parent cell.
        have hsrcfin : (computeCosts env data initTables).dp n m2 u2 ≠ INF := by
          rw [hcurdp]
          exact hm1
        have hgood := (ih hnL m2 u2 hsrcfin).2 hn0
        rcases he : (recPath (computeCosts env data initTables).parents n (n, m2, u2)).reverse.foldl
            (segFold data) ([], [], none) with ⟨A, B, C⟩
        rw [he] at hgood
        obtain ⟨hC, hBne, hjoin, hsegs, hBval, hcost, hphase⟩ := hgood
        simp only at hC hBne hjoin hsegs hBval hcost hphase
        rw [hC]
        have hvalF : (computeCosts env data initTables).dp (n + 1) m u =
            (computeCosts env data initTables).dp n m2 u2 +
              (transitionOf env (data.getD n default) m2 u2 m).1 := by
          rw [hval, hcurdp]
        have htake := take_succ_getD data n (by omega) default
        by_cases hmm : m = m2
        · -- Same-mode continuation extends the running segment.
          subst hmm
          have hsp := cont_splice env (data.getD n default) m B
          rw [← hphase] at hsp
          have hphu : u = phaseFin m (B.length + 1) := by
            rw [← hm3, transitionOf_same]
            exact hsp.2
          show GoodAcc env data (n + 1) m u (segFold data (A, B, some m) (n + 1, m, u)) _
          show GoodAcc env data (n + 1) m u
            (if m = m then (A, B ++ [data.getD (n + 1 - 1) default], some m)
             else (A ++ [⟨B, m⟩], [data.getD (n + 1 - 1) default], some m)) _
          rw [if_pos rfl]
          simp only [Nat.add_sub_cancel]
          refine ⟨rfl, by simp, ?_, hsegs, ?_, ?_, ?_⟩
          · simp only
            rw [← List.append_assoc, hjoin, ← htake]
          · intro x hx
            rcases List.mem_append.mp hx with hx | hx
            · exact hBval x hx
            · rcases List.mem_singleton.mp hx with rfl
              exact hm2
          · rw [hvalF, hcost, transitionOf_same]
            simp only
            rw [hsp.1]
            omega
          · simpa using hphu
        · -- A mode switch closes the running segment and opens a new one.
          have hsw := transitionOf_diff env (data.getD n default) m2 u2 m hmm
          have hss := switch_state env (data.getD n default) m
          have hphu : u = phaseFin m 1 := by
            rw [← hm3, hsw]
            exact hss.2
          show GoodAcc env data (n + 1) m u (segFold data (A, B, some m2) (n + 1, m, u)) _
          show GoodAcc env data (n + 1) m u
            (if m = m2 then (A, B ++ [data.getD (n + 1 - 1) default], some m2)
             else (A ++ [⟨B, m2⟩], [data.getD (n + 1 - 1) default], some m)) _
          rw [if_neg hmm]
          simp only [Nat.add_sub_cancel]
          refine ⟨rfl, by simp, ?_, ?_, ?_, ?_, ?_⟩
          · simp only
            rw [joinData_append]
            have hj1 : joinData [(⟨B, m2⟩ : Segment)] = B := by
              simp [joinData]
            rw [hj1, hjoin, ← htake]
          · intro s hs
            rcases List.mem_append.mp hs with hs | hs
            · exact hsegs s hs
            · rcases List.mem_singleton.mp hs with rfl
              exact ⟨hBne, hBval⟩
          · intro x hx
            rcases List.mem_singleton.mp hx with rfl
            exact hm2
          · rw [hvalF, hcost, hsw, hss.1, compute_length_append]
            have hc1 : compute_length env [(⟨B, m2⟩ : Segment)] = encLength env m2 B := by
              simp [compute_length]
            rw [hc1]
          · simpa using hphu

/-! ### Completeness of the DP table: every valid partition bounds it -/

/-- The payload bits added by extending a group of `k` characters of mode
`m` with the characters of `s`, one continuation transition at a time. -/
def runDelta (m : Mode) (k : Nat) (s : List Char) : Nat :=
  match m with
  | .numeric => numericPayload (k + s.length) - numericPayload k
  | .alphanumeric => alphanumericPayload (k + s.length) - alphanumericPayload k
  | .byte => 8 * utf8Len s
  | .kanji => 13 * s.length

theorem utf8Len_cons (c : Char) (s : List Char) :
    utf8Len (c :: s) = c.utf8Size + utf8Len s := by
  simp [utf8Len]

theorem runDelta_nil (m : Mode) (k : Nat) : runDelta m k [] = 0 := by
  cases m <;> simp [runDelta, utf8Len]

theorem runDelta_zero (m : Mode) (s : List Char) : runDelta m 0 s = encPayload m s := by
  cases m <;> simp [runDelta, encPayload, numericPayload, alphanumericPayload]

theorem runDelta_append (m : Mode) (k : Nat) (s t : List Char) :
    runDelta m k s + runDelta m (k + s.length) t = runDelta m k (s ++ t) := by
  have h1 := numericPayload_mono (show k ≤ k + s.length by omega)
  have h2 := numericPayload_mono (show k + s.length ≤ k + s.length + t.length by omega)
  have h3 := alphanumericPayload_mono (show k ≤ k + s.length by omega)
  have h4 := alphanumericPayload_mono (show k + s.length ≤ k + s.length + t.length by omega)
  cases m <;>
    simp only [runDelta, List.length_append, utf8Len_append] <;>
    first
    | (rw [show k + (s.length + t.length) = k + s.length + t.length from by omega]; omega)
    | omega

theorem runDelta_le_32 (m : Mode) (k : Nat) (s : List Char) :
    runDelta m k s ≤ 32 * s.length := by
  have h1 := numericPayload_subadd k s.length
  have h2 := numericPayload_le s.length
  have h3 := alphanumericPayload_subadd k s.length
  have h4 := alphanumericPayload_le s.length
  have h5 := utf8Len_le s
  cases m <;> simp only [runDelta] <;> omega

theorem runDelta_le_payload (m : Mode) (k : Nat) (s : List Char) :
    runDelta m k s ≤ encPayload m s := by
  have h1 := numericPayload_subadd k s.length
  have h3 := alphanumericPayload_subadd k s.length
  cases m <;> simp only [runDelta, encPayload] <;> omega

theorem cont_phase (c : Char) (m : Mode) (k : Nat) :
    (compute_new_state_without_mode_changing c m (phaseFin m k)).2 = phaseFin m (k + 1) := by
  cases m
  case numeric =>
    show (⟨(k % 3 + 1) % 3, by omega⟩ : Fin 3) = ⟨(k + 1) % 3, by omega⟩
    apply Fin.ext
    show (k % 3 + 1) % 3 = (k + 1) % 3
    omega
  case alphanumeric =>
    show (⟨(k % 2 + 1) % 2, by omega⟩ : Fin 3) = ⟨(k + 1) % 2, by omega⟩
    apply Fin.ext
    show (k % 2 + 1) % 2 = (k + 1) % 2
    omega
  case byte => rfl
  case kanji => rfl

theorem cont_cost (c : Char) (m : Mode) (k : Nat) :
    (compute_new_state_without_mode_changing c m (phaseFin m k)).1 = runDelta m k [c] := by
  have hn := numericPayload_succ k
  have ha := alphanumericPayload_succ k
  cases m
  case numeric =>
    show (if (⟨k % 3, by omega⟩ : Fin 3).val = 0 then 4 else 3) = _
    simp only [runDelta, List.length_cons, List.length_nil]
    by_cases h0 : k % 3 = 0 <;> simp [h0] at hn ⊢ <;> omega
  case alphanumeric =>
    show (if (⟨k % 2, by omega⟩ : Fin 3).val = 0 then 6 else 5) = _
    simp only [runDelta, List.length_cons, List.length_nil]
    by_cases h0 : k % 2 = 0 <;> simp [h0] at ha ⊢ <;> omega
  case byte =>
    simp [compute_new_state_without_mode_changing, runDelta, utf8Len]
  case kanji =>
    simp [compute_new_state_without_mode_changing, runDelta]

/-- Single relaxation bound on the final table: any legal transition from a
finite cell bounds the corresponding cell of the next row. -/
theorem dp_step_le (env : Env) (data : List Char) (pos : Nat) (hpos : pos < data.length)
    (m : Mode) (u : Fin 3) (nm : Mode)
    (hfin : (computeCosts env data initTables).dp pos m u ≠ INF)
    (hvalid : isValidChar env nm (data.getD pos default) = true) :
    (computeCosts env data initTables).dp (pos + 1) nm
        (transitionOf env (data.getD pos default) m u nm).2 ≤
      (computeCosts env data initTables).dp pos m u +
        (transitionOf env (data.getD pos default) m u nm).1 := by
  have hstab1 := costsUpTo_stable env data initTables data.length (pos + 1) (by omega)
  have hstabn := costsUpTo_stable env data initTables data.length pos (by omega)
  have hrec := costsUpTo_row_succ env data initTables pos
  unfold relaxRow at hrec
  have hcur : (computeCosts env data initTables).dp pos =
      (costsUpTo env data initTables pos).dp pos := by
    show (costsUpTo env data initTables data.length).dp pos = _
    exact hstabn.1
  have hfin2 : (costsUpTo env data initTables pos).dp pos m u ≠ INF := by
    rw [← hcur]
    exact hfin
  have hcand := relaxFold_le_cand env pos (data.getD pos default)
    ((costsUpTo env data initTables pos).dp pos) candList
    (initTables.dp (pos + 1), initTables.parents (pos + 1)) ((m, u), nm)
    (candList_mem m u nm) hfin2 hvalid
  dsimp only at hcand
  have hrow : (computeCosts env data initTables).dp (pos + 1) =
      (List.foldl
        (relaxStep env pos (data.getD pos default) ((costsUpTo env data initTables pos).dp pos))
        (initTables.dp (pos + 1), initTables.parents (pos + 1)) candList).1 := by
    show (costsUpTo env data initTables data.length).dp (pos + 1) = _
    rw [hstab1.1, hrec.1]
  rw [hrow, hcur]
  exact hcand

/-- Continuation-run bound: extending a same-mode group character by
character from a finite cell keeps the table below the start cost plus the
payload delta of the run. -/
theorem dp_run (env : Env) (data : List Char) :
    ∀ (s : List Char) (pos k : Nat) (m : Mode),
      data.drop pos = s ++ data.drop (pos + s.length) →
      pos + s.length ≤ data.length →
      (∀ c ∈ s, isValidChar env m c = true) →
      (computeCosts env data initTables).dp pos m (phaseFin m k) ≠ INF →
      (computeCosts env data initTables).dp pos m (phaseFin m k) + 32 * s.length < INF →
      (computeCosts env data initTables).dp (pos + s.length) m (phaseFin m (k + s.length)) ≤
        (computeCosts env data initTables).dp pos m (phaseFin m k) + runDelta m k s ∧
      (computeCosts env data initTables).dp (pos + s.length) m (phaseFin m (k + s.length)) ≠
        INF := by
  intro s
  induction s with
  | nil =>
    intro pos k m _ _ _ hfin _
    simp only [List.length_nil, Nat.add_zero]
    rw [runDelta_nil]
    exact ⟨by omega, hfin⟩
  | cons c s ih =>
    intro pos k m hslice hlen hvalid hfin hbud
    have hlen1 : (c :: s).length = s.length + 1 := by simp
    have hslice2 : data.drop pos = c :: (s ++ data.drop (pos + (c :: s).length)) := by
      simpa using hslice
    have hf := drop_cons_facts data pos c (s ++ data.drop (pos + (c :: s).length)) default hslice2
    have hgetD : data.getD pos default = c := hf.1
    have hv1 : isValidChar env m (data.getD pos default) = true := by
      rw [hgetD]
      exact hvalid c (List.mem_cons_self c s)
    have hstep := dp_step_le env data pos hf.2.2 m (phaseFin m k) m hfin hv1
    rw [transitionOf_same, cont_phase, cont_cost, hgetD] at hstep
    have hd32 : runDelta m k [c] ≤ 32 := by
      have := runDelta_le_32 m k [c]
      simpa using this
    have hfin2 : (computeCosts env data initTables).dp (pos + 1) m (phaseFin m (k + 1)) ≠
        INF := by
      have hb : (computeCosts env data initTables).dp pos m (phaseFin m k) + 32 < INF := by
        simp only [List.length_cons] at hbud
        omega
      omega
    have hbud2 : (computeCosts env data initTables).dp (pos + 1) m (phaseFin m (k + 1)) +
        32 * s.length < INF := by
      simp only [List.length_cons] at hbud
      omega
    have hpos2 : pos + (c :: s).length = (pos + 1) + s.length := by
      simp only [List.length_cons]
      omega
    have hslice3 : data.drop (pos + 1) = s ++ data.drop ((pos + 1) + s.length) := by
      rw [← hpos2]
      exact hf.2.1
    have hlen2 : (pos + 1) + s.length ≤ data.length := by
      rw [← hpos2]
      simpa using hlen
    have hvalid2 : ∀ x ∈ s, isValidChar env m x = true := by
      intro x hx
      exact hvalid x (List.mem_cons_of_mem c hx)
    have hihr := ih (pos + 1) (k + 1) m hslice3 hlen2 hvalid2 hfin2 hbud2
    have hdelta : runDelta m k [c] + runDelta m (k + 1) s = runDelta m k (c :: s) := by
      have := runDelta_append m k [c] s
      simpa using this
    constructor
    · rw [hpos2, show k + (c :: s).length = (k + 1) + s.length from by simp; omega]
      calc (computeCosts env data initTables).dp ((pos + 1) + s.length) m
            (phaseFin m ((k + 1) + s.length)) ≤
          (computeCosts env data initTables).dp (pos + 1) m (phaseFin m (k + 1)) +
            runDelta m (k + 1) s := hihr.1
        _ ≤ (computeCosts env data initTables).dp pos m (phaseFin m k) + runDelta m k [c] +
            runDelta m (k + 1) s := by omega
        _ = (computeCosts env data initTables).dp pos m (phaseFin m k) +
            runDelta m k (c :: s) := by omega
    · rw [hpos2, show k + (c :: s).length = (k + 1) + s.length from by simp; omega]
      exact hihr.2

theorem joinData_cons (p : Segment) (P : List Segment) :
    joinData (p :: P) = p.data ++ joinData P := by
  simp [joinData]

theorem compute_length_cons (env : Env) (p : Segment) (P : List Segment) :
    compute_length env (p :: P) =
      encLength env p.encoder_class p.data + compute_length env P := by
  simp [compute_length]

theorem dp_complete_aux (env : Env) (data : List Char) (Hciw : ∀ m, env.ciw m ≤ 16) :
    ∀ (P : List Segment) (pos k : Nat) (m : Mode) (C : Nat),
      data.drop pos = joinData P ++ data.drop (pos + (joinData P).length) →
      pos + (joinData P).length ≤ data.length →
      (∀ s ∈ P, s.data ≠ [] ∧ ∀ c ∈ s.data, isValidChar env s.encoder_class c = true) →
      (computeCosts env data initTables).dp pos m (phaseFin m k) ≠ INF →
      (computeCosts env data initTables).dp pos m (phaseFin m k) ≤ C →
      C + 51 * (data.length - pos) < INF →
      ∃ m2 k2,
        (computeCosts env data initTables).dp (pos + (joinData P).length) m2
          (phaseFin m2 k2) ≠ INF ∧
        (computeCosts env data initTables).dp (pos + (joinData P).length) m2
          (phaseFin m2 k2) ≤ C + compute_length env P := by
  intro P
  induction P with
  | nil =>
    intro pos k m C h1 h2 h3 hfin hle hbud
    refine ⟨m, k, ?_, ?_⟩ <;>
      simp only [joinData, List.map_nil, compute_length, List.sum_nil] <;>
      simp only [List.flatten_nil, List.length_nil, Nat.add_zero]
    · exact hfin
    · omega
  | cons p P ihP =>
    intro pos k m C h1 h2 h3 hfin hle hbud
    obtain ⟨s, mp⟩ := p
    have hpfacts := h3 ⟨s, mp⟩ (List.mem_cons_self _ _)
    have hpne : s ≠ [] := hpfacts.1
    have hpval : ∀ c ∈ s, isValidChar env mp c = true := hpfacts.2
    have hslen : 1 ≤ s.length := List.length_pos.mpr hpne
    have hjc : joinData ((⟨s, mp⟩ : Segment) :: P) = s ++ joinData P := joinData_cons _ _
    have hlenjc : (joinData ((⟨s, mp⟩ : Segment) :: P)).length =
        s.length + (joinData P).length := by
      rw [hjc, List.length_append]
    have hposrw : pos + (joinData ((⟨s, mp⟩ : Segment) :: P)).length =
        (pos + s.length) + (joinData P).length := by
      rw [hlenjc]
      omega
    have h1a : data.drop pos =
        s ++ (joinData P ++ data.drop ((pos + s.length) + (joinData P).length)) := by
      rw [← hposrw, ← List.append_assoc, ← hjc]
      exact h1
    have hdropS : data.drop (pos + s.length) =
        joinData P ++ data.drop ((pos + s.length) + (joinData P).length) :=
      drop_append_of_drop data pos s _ h1a
    have hsliceS : data.drop pos = s ++ data.drop (pos + s.length) := by
      rw [hdropS]
      exact h1a
    have hlenS : pos + s.length ≤ data.length := by
      rw [hposrw] at h2
      omega
    have hlen2 : (pos + s.length) + (joinData P).length ≤ data.length := by
      rw [← hposrw]
      exact h2
    have h3t : ∀ t ∈ P, t.data ≠ [] ∧ ∀ c ∈ t.data, isValidChar env t.encoder_class c = true :=
      fun t ht => h3 t (List.mem_cons_of_mem _ ht)
    have hclcons : compute_length env ((⟨s, mp⟩ : Segment) :: P) =
        encLength env mp s + compute_length env P := compute_length_cons env _ _
    have hEs : encLength env mp s ≤ 19 + 32 * s.length := encLength_le env mp s (Hciw mp)
    by_cases hm : mp = m
    · -- The piece continues the current run.
      subst hm
      have hbud2 : (computeCosts env data initTables).dp pos mp (phaseFin mp k) +
          32 * s.length < INF := by
        omega
      have hrun := dp_run env data s pos k mp hsliceS hlenS hpval hfin hbud2
      have hd := runDelta_le_payload mp k s
      have hnext : (computeCosts env data initTables).dp (pos + s.length) mp
          (phaseFin mp (k + s.length)) ≤ C + encLength env mp s := by
        have := hrun.1
        unfold encLength
        omega
      have hbud3 : (C + encLength env mp s) + 51 * (data.length - (pos + s.length)) < INF := by
        omega
      obtain ⟨m2, k2, hf2, hl2⟩ := ihP (pos + s.length) (k + s.length) mp
        (C + encLength env mp s) hdropS hlen2 h3t hrun.2 hnext hbud3
      refine ⟨m2, k2, ?_, ?_⟩
      · rw [hposrw]
        exact hf2
      · rw [hposrw, hclcons]
        omega
    · -- The piece starts with a mode switch.
      rcases s with _ | ⟨c, s2⟩
      · exact absurd rfl hpne
      have hslice2 : data.drop pos = c :: (s2 ++ data.drop (pos + (c :: s2).length)) := by
        simpa using hsliceS
      have hf := drop_cons_facts data pos c (s2 ++ data.drop (pos + (c :: s2).length))
        default hslice2
      have hv1 : isValidChar env mp (data.getD pos default) = true := by
        rw [hf.1]
        exact hpval c (List.mem_cons_self _ _)
      have hstep := dp_step_le env data pos hf.2.2 m (phaseFin m k) mp hfin hv1
      rw [transitionOf_diff env _ m (phaseFin m k) mp hm] at hstep
      have hss := switch_state env (data.getD pos default) mp
      rw [hss.1, hss.2, hf.1] at hstep
      have hE1 : encLength env mp [c] ≤ 51 := by
        have := encLength_le env mp [c] (Hciw mp)
        simp only [List.length_cons, List.length_nil] at this
        omega
      have hremS : s2.length + 1 ≤ data.length - pos := by
        simp only [List.length_cons] at hlenS
        omega
      have hstep2 : (computeCosts env data initTables).dp (pos + 1) mp (phaseFin mp 1) ≤
          C + encLength env mp [c] := by
        omega
      have hfin2 : (computeCosts env data initTables).dp (pos + 1) mp (phaseFin mp 1) ≠
          INF := by
        omega
      have hpos2 : pos + (c :: s2).length = (pos + 1) + s2.length := by
        simp only [List.length_cons]
        omega
      have hslice3 : data.drop (pos + 1) = s2 ++ data.drop ((pos + 1) + s2.length) := by
        rw [← hpos2]
        exact hf.2.1
      have hlen3 : (pos + 1) + s2.length ≤ data.length := by
        rw [← hpos2]
        exact hlenS
      have hval2 : ∀ x ∈ s2, isValidChar env mp x = true :=
        fun x hx => hpval x (List.mem_cons_of_mem _ hx)
      have hbud4 : (computeCosts env data initTables).dp (pos + 1) mp (phaseFin mp 1) +
          32 * s2.length < INF := by
        omega
      have hrun := dp_run env data s2 (pos + 1) 1 mp hslice3 hlen3 hval2 hfin2 hbud4
      have hE2 : encLength env mp [c] + runDelta mp 1 s2 = encLength env mp (c :: s2) := by
        have hz1 : runDelta mp 0 [c] = encPayload mp [c] := by
          rw [runDelta_zero]
        have hz2 : runDelta mp 0 (c :: s2) = encPayload mp (c :: s2) := by
          rw [runDelta_zero]
        have ha := runDelta_append mp 0 [c] s2
        simp only [List.length_cons, List.length_nil, List.singleton_append] at ha
        norm_num at ha
        unfold encLength
        omega
      have hnext : (computeCosts env data initTables).dp ((pos + 1) + s2.length) mp
          (phaseFin mp (1 + s2.length)) ≤ C + encLength env mp (c :: s2) := by
        have := hrun.1
        omega
      have hbud5 : (C + encLength env mp (c :: s2)) +
          51 * (data.length - ((pos + 1) + s2.length)) < INF := by
        have hEc : encLength env mp (c :: s2) ≤ 19 + 32 * (s2.length + 1) := by
          have := encLength_le env mp (c :: s2) (Hciw mp)
          simpa using this
        omega
      have hdropS2 : data.drop ((pos + 1) + s2.length) =
          joinData P ++ data.drop (((pos + 1) + s2.length) + (joinData P).length) := by
        rw [← hpos2]
        exact hdropS
      have hlen4 : ((pos + 1) + s2.length) + (joinData P).length ≤ data.length := by
        rw [← hpos2]
        exact hlen2
      obtain ⟨m2, k2, hf2, hl2⟩ := ihP ((pos + 1) + s2.length) (1 + s2.length) mp
        (C + encLength env mp (c :: s2)) hdropS2 hlen4 h3t hrun.2 hnext hbud5
      refine ⟨m2, k2, ?_, ?_⟩
      · rw [hposrw, hpos2]
        exact hf2
      · rw [hposrw, hpos2, hclcons]
        omega

/-- Validity of a mode-partition, the specification-side notion: nonempty
mode-tagged pieces whose concatenation is the data, every character
acceptable in its piece mode. -/
def ValidPartition (env : Env) (data : List Char) (P : List Segment) : Prop :=
  joinData P = data ∧
  ∀ s ∈ P, s.data ≠ [] ∧ ∀ c ∈ s.data, isValidChar env s.encoder_class c = true

/-- The DP minimum is a lower bound on the total encoded length of every
valid mode-partition of a nonempty input. -/
theorem best_le_partition (env : Env) (data : List Char) (Hciw : ∀ m, env.ciw m ≤ 16)
    (HL : data.length ≤ MAX_CHARACTER) (hne : data ≠ []) (P : List Segment)
    (hP : ValidPartition env data P) :
    (findBest ((computeCosts env data initTables).dp data.length) data.length).cost ≤
      compute_length env P := by
  obtain ⟨hjoin, hvalid⟩ := hP
  rcases P with _ | ⟨⟨s1, m1⟩, P2⟩
  · exfalso
    apply hne
    rw [← hjoin]
    simp [joinData]
  · have hps := hvalid ⟨s1, m1⟩ (List.mem_cons_self _ _)
    have hs1ne : s1 ≠ [] := hps.1
    have hs1val : ∀ c ∈ s1, isValidChar env m1 c = true := hps.2
    have hjc : joinData ((⟨s1, m1⟩ : Segment) :: P2) = s1 ++ joinData P2 := joinData_cons _ _
    rw [hjc] at hjoin
    have hlen : s1.length + (joinData P2).length = data.length := by
      rw [← hjoin, List.length_append]
    unfold MAX_CHARACTER at HL
    have hbase : (computeCosts env data initTables).dp 0 m1 0 = encLength env m1 [] := by
      show (costsUpTo env data initTables data.length).dp 0 m1 0 = _
      rw [(costsUpTo_row_zero env data initTables data.length m1 0).1]
      simp
    have hciw1 := Hciw m1
    have hbasefin : (computeCosts env data initTables).dp 0 m1 0 ≠ INF := by
      rw [hbase, encLength_nil]
      unfold INF
      omega
    have h0 : data.drop 0 = s1 ++ joinData P2 := by
      simpa using hjoin.symm
    have hd := drop_append_of_drop data 0 s1 (joinData P2) h0
    have hdrop0 : data.drop 0 = s1 ++ data.drop (0 + s1.length) := by
      rw [hd]
      exact h0
    have hlen0 : 0 + s1.length ≤ data.length := by omega
    have hbud : (computeCosts env data initTables).dp 0 m1 (phaseFin m1 0) +
        32 * s1.length < INF := by
      rw [phaseFin_zero, hbase, encLength_nil]
      unfold INF
      omega
    have hfin0 : (computeCosts env data initTables).dp 0 m1 (phaseFin m1 0) ≠ INF := by
      rw [phaseFin_zero]
      exact hbasefin
    have hrun := dp_run env data s1 0 0 m1 hdrop0 hlen0 hs1val hfin0 hbud
    have hafter : (computeCosts env data initTables).dp (0 + s1.length) m1
        (phaseFin m1 (0 + s1.length)) ≤ encLength env m1 s1 := by
      have h1 := hrun.1
      rw [phaseFin_zero, hbase, encLength_nil] at h1
      have h2 := runDelta_zero m1 s1
      unfold encLength
      omega
    have hdropS : data.drop (0 + s1.length) =
        joinData P2 ++ data.drop ((0 + s1.length) + (joinData P2).length) := by
      rw [hd]
      have hfull : (0 + s1.length) + (joinData P2).length = data.length := by omega
      rw [hfull, List.drop_length]
      simp
    have hlen2 : (0 + s1.length) + (joinData P2).length ≤ data.length := by omega
    have h3t : ∀ t ∈ P2, t.data ≠ [] ∧
        ∀ c ∈ t.data, isValidChar env t.encoder_class c = true :=
      fun t ht => hvalid t (List.mem_cons_of_mem _ ht)
    have hbud2 : encLength env m1 s1 + 51 * (data.length - (0 + s1.length)) < INF := by
      have := encLength_le env m1 s1 (Hciw m1)
      unfold INF
      omega
    obtain ⟨m2, k2, hf2, hl2⟩ := dp_complete_aux env data Hciw P2 (0 + s1.length)
      (0 + s1.length) m1 (encLength env m1 s1) hdropS hlen2 h3t hrun.2 hafter hbud2
    have hLpos : (0 + s1.length) + (joinData P2).length = data.length := by omega
    rw [hLpos] at hl2
    have hfb := findBest_le ((computeCosts env data initTables).dp data.length)
      data.length m2 (phaseFin m2 k2)
    rw [compute_length_cons]
    simp only at hl2 ⊢
    omega

/-! ### Behaviour of `compute` on accepted inputs -/

theorem compute_unfold_ok (env : Env) (data : List Char) (t : Tables)
    (HL : ¬ data.length > MAX_CHARACTER)
    (Hfit : ¬ (findBest ((computeCosts env data t).dp data.length) data.length).cost >
      env.numDataBits)
    (idx : Nat × Mode × Fin 3)
    (hidx : (findBest ((computeCosts env data t).dp data.length) data.length).index =
      some idx) :
    compute env data t =
      (Except.ok (computeSegments (reconstructPath (computeCosts env data t).parents idx) data),
        computeCosts env data t) := by
  unfold compute
  rw [if_neg HL]
  dsimp only
  rw [if_neg Hfit, hidx]

/-- Master correctness of an accepted nonempty run on a fresh instance:
`compute` succeeds, and the returned segments form a valid partition that
reconstructs the input and whose total length is exactly the DP minimum. -/
theorem compute_correct (env : Env) (data : List Char) (Hciw : ∀ m, env.ciw m ≤ 16)
    (Hcap : env.numDataBits < INF) (HL : data.length ≤ MAX_CHARACTER)
    (Hfit : (findBest ((computeCosts env data initTables).dp data.length) data.length).cost ≤
      env.numDataBits)
    (hne : data ≠ []) :
    ∃ segs,
      (compute env data initTables).1 = Except.ok segs ∧
      joinData segs = data ∧
      compute_length env segs =
        (findBest ((computeCosts env data initTables).dp data.length) data.length).cost ∧
      ValidPartition env data segs := by
  have hcostlt : (findBest ((computeCosts env data initTables).dp data.length)
      data.length).cost < INF := by omega
  obtain ⟨m, u, hidx, hcell, _⟩ :=
    findBest_argmin ((computeCosts env data initTables).dp data.length) data.length hcostlt
  have hfin : (computeCosts env data initTables).dp data.length m u ≠ INF := by
    rw [hcell]
    omega
  have hLne : data.length ≠ 0 := by
    intro h
    exact hne (List.eq_nil_of_length_eq_zero h)
  have hgood := (dp_sound env data Hciw data.length (le_refl _) m u hfin).2 hLne
  rcases he : (recPath (computeCosts env data initTables).parents data.length
      (data.length, m, u)).reverse.foldl (segFold data) ([], [], none) with ⟨A, B, C⟩
  rw [he] at hgood
  obtain ⟨hC, hBne, hjoin, hsegs, hBval, hcost, _⟩ := hgood
  simp only at hC hBne hjoin hsegs hBval hcost
  have hsegeq : computeSegments
      (reconstructPath (computeCosts env data initTables).parents (data.length, m, u)) data =
      A ++ [⟨B, m⟩] := by
    unfold computeSegments reconstructPath
    dsimp only
    rw [he, hC]
  have hcomp := compute_unfold_ok env data initTables (by omega) (by omega) (data.length, m, u) hidx
  refine ⟨A ++ [⟨B, m⟩], ?_, ?_, ?_, ?_⟩
  · rw [hcomp]
    dsimp only
    rw [hsegeq]
  · rw [joinData_append]
    have hj1 : joinData [(⟨B, m⟩ : Segment)] = B := by simp [joinData]
    rw [hj1, hjoin, List.take_length]
  · rw [compute_length_append]
    have hc1 : compute_length env [(⟨B, m⟩ : Segment)] = encLength env m B := by
      simp [compute_length]
    rw [hc1, ← hcell, hcost]
  · refine ⟨?_, ?_⟩
    · rw [joinData_append]
      have hj1 : joinData [(⟨B, m⟩ : Segment)] = B := by simp [joinData]
      rw [hj1, hjoin, List.take_length]
    · intro s hs
      rcases List.mem_append.mp hs with hs | hs
      · exact hsegs s hs
      · rcases List.mem_singleton.mp hs with rfl
        exact ⟨hBne, hBval⟩

/-! ### All-numeric dominance for digit-only strings -/

theorem digit_utf8Size (c : Char) (h : numericValidChar c = true) : c.utf8Size = 1 := by
  simp only [numericValidChar, Bool.and_eq_true, decide_eq_true_eq] at h
  have h3 : c.val.toNat ≤ 57 := h.2
  unfold Char.utf8Size
  dsimp only
  have h2 : c.val ≤ UInt32.ofNatCore 127 Char.utf8Size.proof_1 := by
    show c.val.toNat ≤ (UInt32.ofNatCore 127 Char.utf8Size.proof_1).toNat
    have h4 : (UInt32.ofNatCore 127 Char.utf8Size.proof_1).toNat = 127 := rfl
    omega
  rw [if_pos h2]

theorem digit_utf8Len (s : List Char) (h : ∀ c ∈ s, numericValidChar c = true) :
    utf8Len s = s.length := by
  induction s with
  | nil => rfl
  | cons c s ih =>
    rw [utf8Len_cons, digit_utf8Size c (h c (List.mem_cons_self _ _)),
      ih (fun x hx => h x (List.mem_cons_of_mem _ hx))]
    simp only [List.length_cons]
    omega

/-- Per-piece dominance: on a nonempty digit-only piece, every legal mode
costs at least the Numeric encoding of that piece, strictly more for a
non-Numeric mode, under the count-indicator width relations of the real
capacity table. -/
theorem digit_piece_ge (env : Env)
    (H1 : env.ciw Mode.numeric ≤ env.ciw Mode.alphanumeric + 1)
    (H2 : env.ciw Mode.numeric ≤ env.ciw Mode.byte + 3)
    (H3 : ∀ c, numericValidChar c = true → env.kanjiValid c = false)
    (s : List Char) (mp : Mode) (hne : s ≠ [])
    (hdig : ∀ c ∈ s, numericValidChar c = true)
    (hval : ∀ c ∈ s, isValidChar env mp c = true) :
    encLength env Mode.numeric s + (if mp = Mode.numeric then 0 else 1) ≤
      encLength env mp s := by
  have hpos : 1 ≤ s.length := List.length_pos.mpr hne
  cases mp
  case numeric => simp
  case alphanumeric =>
    have hp := numericPayload_lt_alphanumeric hpos
    simp only [encLength, encPayload]
    rw [if_neg (by decide : ¬ (Mode.alphanumeric = Mode.numeric))]
    omega
  case byte =>
    have hp := numericPayload_lt_byte hpos
    have hu := digit_utf8Len s hdig
    simp only [encLength, encPayload]
    rw [if_neg (by decide : ¬ (Mode.byte = Mode.numeric))]
    omega
  case kanji =>
    exfalso
    rcases s with _ | ⟨c0, s2⟩
    · exact hne rfl
    have hv := hval c0 (List.mem_cons_self _ _)
    have hd := hdig c0 (List.mem_cons_self _ _)
    have hk := H3 c0 hd
    simp only [isValidChar] at hv
    rw [hk] at hv
    cases hv

/-- Partition dominance for digit-only data: every valid partition costs
at least the single Numeric segment, with equality only for exactly that
partition. -/
theorem digit_partition_ge (env : Env)
    (H1 : env.ciw Mode.numeric ≤ env.ciw Mode.alphanumeric + 1)
    (H2 : env.ciw Mode.numeric ≤ env.ciw Mode.byte + 3)
    (H3 : ∀ c, numericValidChar c = true → env.kanjiValid c = false) :
    ∀ (P : List Segment) (data : List Char),
      data ≠ [] → (∀ c ∈ data, numericValidChar c = true) →
      ValidPartition env data P →
      encLength env Mode.numeric data ≤ compute_length env P ∧
      (compute_length env P = encLength env Mode.numeric data →
        P = [⟨data, Mode.numeric⟩]) := by
  intro P
  induction P with
  | nil =>
    intro data hne hdig hP
    exfalso
    apply hne
    rw [← hP.1]
    simp [joinData]
  | cons p P2 ih =>
    intro data hne hdig hP
    obtain ⟨hjoin, hval⟩ := hP
    obtain ⟨s, mp⟩ := p
    have hps := hval ⟨s, mp⟩ (List.mem_cons_self _ _)
    have hsne : s ≠ [] := hps.1
    have hjc : joinData ((⟨s, mp⟩ : Segment) :: P2) = s ++ joinData P2 := joinData_cons _ _
    rw [hjc] at hjoin
    have hsdig : ∀ c ∈ s, numericValidChar c = true := by
      intro c hc
      exact hdig c (by rw [← hjoin]; exact List.mem_append.mpr (Or.inl hc))
    have hpiece := digit_piece_ge env H1 H2 H3 s mp hsne hsdig hps.2
    rcases hP2 : P2 with _ | ⟨q, P3⟩
    · -- Single piece: the piece is the whole data.
      subst hP2
      have hsd : s = data := by
        simpa [joinData] using hjoin
      subst hsd
      by_cases hmp : mp = Mode.numeric
      · subst hmp
        constructor
        · simp [compute_length]
        · intro _
          rfl
      · rw [if_neg hmp] at hpiece
        constructor
        · simp only [compute_length, List.map_cons, List.map_nil, List.sum_cons, List.sum_nil]
          omega
        · intro heq
          exfalso
          simp only [compute_length, List.map_cons, List.map_nil, List.sum_cons,
            List.sum_nil] at heq
          omega
    · -- At least two pieces: the extra header forces a strict excess.
      subst hP2
      have hqne : q.data ≠ [] := (hval q (List.mem_cons_of_mem _ (List.mem_cons_self _ _))).1
      have hd2ne : joinData (q :: P3) ≠ [] := by
        rw [joinData_cons]
        intro hcontra
        exact hqne (List.append_eq_nil.mp hcontra).1
      have hd2dig : ∀ c ∈ joinData (q :: P3), numericValidChar c = true := by
        intro c hc
        exact hdig c (by rw [← hjoin]; exact List.mem_append.mpr (Or.inr hc))
      have hP2valid : ValidPartition env (joinData (q :: P3)) (q :: P3) :=
        ⟨rfl, fun t ht => hval t (List.mem_cons_of_mem _ ht)⟩
      have hih := ih (joinData (q :: P3)) hd2ne hd2dig hP2valid
      have hsub := numericPayload_subadd s.length (joinData (q :: P3)).length
      have hdlen : data.length = s.length + (joinData (q :: P3)).length := by
        rw [← hjoin, List.length_append]
      have hstrict : encLength env Mode.numeric data + 3 ≤
          compute_length env ((⟨s, mp⟩ : Segment) :: q :: P3) := by
        rw [compute_length_cons]
        have hb1 : encLength env Mode.numeric s ≤ encLength env mp s := by
          split_ifs at hpiece <;> omega
        have hb2 : encLength env Mode.numeric (joinData (q :: P3)) ≤
            compute_length env (q :: P3) := hih.1
        simp only [encLength, encPayload] at hb1 hb2 ⊢
        rw [hdlen]
        omega
      constructor
      · omega
      · intro heq
        exfalso
        omega

/-! ### `ByteEncoder` bit-level model (`encoder/byte_encoder.py`) -/

namespace ByteEncoder

/-- Binary digits of `n`, most significant first, with structural fuel
(`fuel ≥ n` always yields the exact digits; `natBits` below passes `n`
itself). Empty for `n = 0`, matching `bin(n)[2:]` only through `pyBin`. -/
def natBitsAux : Nat → Nat → List Bool
  | 0, _ => []
  | fuel + 1, n => if n = 0 then [] else natBitsAux fuel (n / 2) ++ [n % 2 == 1]

/-- Binary digits of a positive number, most significant first. -/
def natBits (n : Nat) : List Bool := natBitsAux n n

/-- Python `bin(n)[2:]`: the string `"0"` for zero, the binary digits
without leading zeros otherwise. -/
def pyBin (n : Nat) : List Bool := if n = 0 then [false] else natBits n

/-- Python `str.zfill(w)`: left-pad with zeros up to width `w`; a longer
input is returned unchanged, never truncated. -/
def zfill (l : List Bool) (w : Nat) : List Bool := List.replicate (w - l.length) false ++ l

/-- The UTF-8 bytes of one character (`str.encode("utf-8")`, per scalar
value). -/
def charUtf8 (c : Char) : List Nat :=
  let v := c.val.toNat
  if v < 128 then [v]
  else if v < 2048 then [192 + v / 64, 128 + v % 64]
  else if v < 65536 then [224 + v / 4096, 128 + v / 64 % 64, 128 + v % 64]
  else [240 + v / 262144, 128 + v / 4096 % 64, 128 + v / 64 % 64, 128 + v % 64]

/-- `data.encode("utf-8")` as a byte list. -/
def strUtf8 (s : List Char) : List Nat := s.flatMap charUtf8

/-- `bin(byte)[2:].zfill(8)` for one byte. -/
def byteBits (b : Nat) : List Bool := zfill (pyBin b) 8

/-- `ByteEncoder._encoded_bits`. -/
def encoded_bits (s : List Char) : List Bool := (strUtf8 s).flatMap byteBits

/-- `ByteEncoder.mode_indicator`, the bit string `"011"`. -/
def mode_indicator : List Bool := [false, true, true]

/-- `ByteEncoder.encode`: mode indicator, zero-filled binary character
count, then the encoded bytes. -/
def encode (data : List Char) (character_count_indicator_length : Nat) : List Bool :=
  mode_indicator ++ zfill (pyBin data.length) character_count_indicator_length ++
    encoded_bits data

/-- `ByteEncoder.length`: `3 + character_count_indicator_length + 8 *
len(data.encode("utf-8"))`. -/
def length (data : List Char) (character_count_indicator_length : Nat) : Nat :=
  3 + character_count_indicator_length + 8 * utf8Len data

theorem natBitsAux_length {k : Nat} :
    ∀ (fuel n : Nat), n < 2 ^ k → (natBitsAux fuel n).length ≤ k := by
  induction k with
  | zero =>
    intro fuel n h
    have : n = 0 := by omega
    subst this
    cases fuel <;> simp [natBitsAux]
  | succ k ih =>
    intro fuel n h
    cases fuel with
    | zero => simp [natBitsAux]
    | succ fuel =>
      by_cases hn : n = 0
      · simp [natBitsAux, hn]
      · have h2 : n / 2 < 2 ^ k := by
          rw [Nat.pow_succ] at h
          omega
        simp only [natBitsAux, hn, if_false, List.length_append, List.length_cons,
          List.length_nil]
        have := ih fuel (n / 2) h2
        omega

theorem pyBin_length_le {k : Nat} (n : Nat) (h : n < 2 ^ k) (hk : 1 ≤ k) :
    (pyBin n).length ≤ k := by
  unfold pyBin
  split_ifs
  · simpa using hk
  · exact natBitsAux_length n n h

theorem zfill_length (l : List Bool) (w : Nat) :
    (zfill l w).length = max w l.length := by
  unfold zfill
  simp only [List.length_append, List.length_replicate]
  omega

theorem byteBits_length (b : Nat) (h : b < 256) : (byteBits b).length = 8 := by
  unfold byteBits
  rw [zfill_length]
  have := pyBin_length_le (k := 8) b (by omega) (by omega)
  omega

theorem char_val_lt (c : Char) : c.val.toNat < 1114112 := by
  rcases c.valid with h | h
  · have : c.val.toNat < 55296 := h
    omega
  · exact h.2

theorem charUtf8_bytes_lt (c : Char) : ∀ b ∈ charUtf8 c, b < 256 := by
  intro b hb
  have hv := char_val_lt c
  unfold charUtf8 at hb
  dsimp only at hb
  split_ifs at hb with h1 h2 h3 <;>
    simp only [List.mem_cons, List.not_mem_nil, or_false] at hb <;>
    rcases hb with rfl | hb <;>
      first
      | omega
      | (rcases hb with rfl | hb <;>
          first
          | omega
          | (rcases hb with rfl | hb <;>
              first
              | omega
              | (rcases hb with rfl <;> omega)))

theorem charUtf8_length (c : Char) : (charUtf8 c).length = c.utf8Size := by
  have hv := char_val_lt c
  unfold charUtf8 Char.utf8Size
  dsimp only
  have e127 : (UInt32.ofNatCore 127 Char.utf8Size.proof_1).toNat = 127 := rfl
  have e2047 : (UInt32.ofNatCore 2047 Char.utf8Size.proof_2).toNat = 2047 := rfl
  have e65535 : (UInt32.ofNatCore 65535 Char.utf8Size.proof_3).toNat = 65535 := rfl
  by_cases h1 : c.val.toNat < 128
  · rw [if_pos h1, if_pos (show c.val.toNat ≤ 127 from by omega : c.val ≤ _)]
    rfl
  · rw [if_neg h1, if_neg (show ¬ c.val.toNat ≤ 127 from by omega : ¬ c.val ≤ _)]
    by_cases h2 : c.val.toNat < 2048
    · rw [if_pos h2, if_pos (show c.val.toNat ≤ 2047 from by omega : c.val ≤ _)]
      rfl
    · rw [if_neg h2, if_neg (show ¬ c.val.toNat ≤ 2047 from by omega : ¬ c.val ≤ _)]
      by_cases h3 : c.val.toNat < 65536
      · rw [if_pos h3, if_pos (show c.val.toNat ≤ 65535 from by omega : c.val ≤ _)]
        rfl
      · rw [if_neg h3, if_neg (show ¬ c.val.toNat ≤ 65535 from by omega : ¬ c.val ≤ _)]
        rfl

theorem strUtf8_length (s : List Char) : (strUtf8 s).length = utf8Len s := by
  induction s with
  | nil => rfl
  | cons c s ih =>
    unfold strUtf8 at ih ⊢
    simp only [List.flatMap_cons, List.length_append, utf8Len_cons, charUtf8_length, ih]

theorem strUtf8_bytes_lt (s : List Char) : ∀ b ∈ strUtf8 s, b < 256 := by
  intro b hb
  unfold strUtf8 at hb
  rcases List.mem_flatMap.mp hb with ⟨c, _, hbc⟩
  exact charUtf8_bytes_lt c b hbc

theorem flatMap_byteBits_length (bs : List Nat) (h : ∀ b ∈ bs, b < 256) :
    (bs.flatMap byteBits).length = 8 * bs.length := by
  induction bs with
  | nil => rfl
  | cons b bs ih =>
    simp only [List.flatMap_cons, List.length_append, List.length_cons]
    rw [byteBits_length b (h b (List.mem_cons_self _ _)),
      ih (fun x hx => h x (List.mem_cons_of_mem _ hx))]
    omega

theorem encoded_bits_length (s : List Char) :
    (encoded_bits s).length = 8 * utf8Len s := by
  unfold encoded_bits
  rw [flatMap_byteBits_length (strUtf8 s) (strUtf8_bytes_lt s), strUtf8_length]

end ByteEncoder

/-! ### Shared setup for the claim theorems -/

instance exceptDecEq {ε α : Type} [DecidableEq ε] [DecidableEq α] :
    DecidableEq (Except ε α) := fun x y =>
  match x, y with
  | .ok a, .ok b =>
    if h : a = b then isTrue (by rw [h]) else isFalse (fun hc => h (by cases hc; rfl))
  | .ok _, .error _ => isFalse (fun hc => by cases hc)
  | .error _, .ok _ => isFalse (fun hc => by cases hc)
  | .error e, .error f =>
    if h : e = f then isTrue (by rw [h]) else isFalse (fun hc => h (by cases hc; rfl))

/-- A concrete environment for witnesses: every count indicator 4 bits
wide, 1000 data bits of capacity, no Kanji-encodable character. -/
def env0 : Env := ⟨fun _ => 4, 1000, fun _ => false⟩

theorem compute_unfold_err (env : Env) (data : List Char) (t : Tables)
    (HL : ¬ data.length > MAX_CHARACTER)
    (hgt : (findBest ((computeCosts env data t).dp data.length) data.length).cost >
      env.numDataBits) :
    compute env data t =
      (Except.error RmqrError.dataTooLongError, computeCosts env data t) := by
  unfold compute
  rw [if_neg HL]
  dsimp only
  rw [if_pos hgt]

theorem compute_empty_ok (env : Env) (Hciw : ∀ m, env.ciw m ≤ 16)
    (Hfit : (findBest ((computeCosts env [] initTables).dp 0) 0).cost ≤ env.numDataBits) :
    (compute env [] initTables).1 = Except.ok [] := by
  have hlt : (findBest ((computeCosts env [] initTables).dp 0) 0).cost < INF := by
    have hb := findBest_le ((computeCosts env [] initTables).dp 0) 0 Mode.numeric 0
    have hbase : (computeCosts env [] initTables).dp 0 Mode.numeric 0 =
        encLength env Mode.numeric [] := by
      show (costsUpTo env [] initTables ([] : List Char).length).dp 0 Mode.numeric 0 = _
      rw [(costsUpTo_row_zero env [] initTables ([] : List Char).length Mode.numeric 0).1]
      simp
    rw [hbase, encLength_nil] at hb
    have := Hciw Mode.numeric
    unfold INF
    omega
  obtain ⟨m, u, hidx, _, _⟩ := findBest_argmin ((computeCosts env [] initTables).dp 0) 0 hlt
  have hcomp := compute_unfold_ok env [] initTables (by decide)
    (by simp only [List.length_nil]; omega) (0, m, u)
    (by simp only [List.length_nil]; exact hidx)
  rw [hcomp]
  rfl

/-! ### The claims -/

/-- C1, counterexample: the empty string is an input of at most 360
characters whose optimal cost (7 bits under `env0`) fits the capacity, yet
the segment list returned by `compute` has total `compute_length` 0 while
the minimum cost found in the DP table by `_find_best` is 7 — the claimed
equality fails on the empty input. -/
theorem c1_counterexample :
    (findBest ((computeCosts env0 ([] : List Char) initTables).dp 0) 0).cost = 7 ∧
    (7 : Nat) ≤ env0.numDataBits ∧
    (compute env0 [] initTables).1 = Except.ok [] ∧
    compute_length env0 [] = 0 ∧ (0 : Nat) ≠ 7 :=
  ⟨by decide, by decide, by decide, by decide, by decide⟩

/-- C1, amended to nonempty inputs: for every nonempty input of at most
360 characters whose optimal cost fits the capacity, `compute` on a fresh
instance returns a segment list whose total `compute_length` equals the
minimum cost found by `_find_best`, the returned list is itself a valid
mode-partition of the input, and that cost is minimal over all valid
mode-partitions. -/
theorem c1_optimality (env : Env) (data : List Char)
    (Hciw : ∀ m, env.ciw m ≤ 16) (Hcap : env.numDataBits < INF)
    (HL : data.length ≤ MAX_CHARACTER) (hne : data ≠ [])
    (Hfit : (findBest ((computeCosts env data initTables).dp data.length)
      data.length).cost ≤ env.numDataBits) :
    ∃ segs, (compute env data initTables).1 = Except.ok segs ∧
      compute_length env segs =
        (findBest ((computeCosts env data initTables).dp data.length) data.length).cost ∧
      ValidPartition env data segs ∧
      ∀ P, ValidPartition env data P →
        (findBest ((computeCosts env data initTables).dp data.length) data.length).cost ≤
          compute_length env P := by
  obtain ⟨segs, h1, _, h3, h4⟩ := compute_correct env data Hciw Hcap HL Hfit hne
  exact ⟨segs, h1, h3, h4, fun P hP => best_le_partition env data Hciw HL hne P hP⟩

/-- Witness for C1 on the one-character digit input under `env0`. -/
theorem c1_optimality_witness :
    ((∀ m, env0.ciw m ≤ 16) ∧ env0.numDataBits < INF ∧
      (['1'] : List Char).length ≤ MAX_CHARACTER ∧ (['1'] : List Char) ≠ [] ∧
      (findBest ((computeCosts env0 ['1'] initTables).dp (['1'] : List Char).length)
        (['1'] : List Char).length).cost ≤ env0.numDataBits) ∧
    (∃ segs, (compute env0 ['1'] initTables).1 = Except.ok segs ∧
      compute_length env0 segs =
        (findBest ((computeCosts env0 ['1'] initTables).dp (['1'] : List Char).length)
          (['1'] : List Char).length).cost ∧
      ValidPartition env0 ['1'] segs ∧
      ∀ P, ValidPartition env0 ['1'] P →
        (findBest ((computeCosts env0 ['1'] initTables).dp (['1'] : List Char).length)
          (['1'] : List Char).length).cost ≤ compute_length env0 P) :=
  ⟨⟨by decide, by decide, by decide, by decide, by decide⟩,
    c1_optimality env0 ['1'] (by decide) (by decide) (by decide) (by decide) (by decide)⟩

/-- C2: for every input accepted by `compute` on a fresh instance (length
within the 360-character cap, optimal cost within capacity), concatenating
the `data` fields of the returned segments in order yields exactly the
original input, with no gaps or overlaps. -/
theorem c2_roundtrip (env : Env) (data : List Char)
    (Hciw : ∀ m, env.ciw m ≤ 16) (Hcap : env.numDataBits < INF)
    (HL : data.length ≤ MAX_CHARACTER)
    (Hfit : (findBest ((computeCosts env data initTables).dp data.length)
      data.length).cost ≤ env.numDataBits) :
    ∃ segs, (compute env data initTables).1 = Except.ok segs ∧ joinData segs = data := by
  by_cases hdata : data = []
  · subst hdata
    exact ⟨[], compute_empty_ok env Hciw (by simpa using Hfit), rfl⟩
  · obtain ⟨segs, h1, h2, _, _⟩ := compute_correct env data Hciw Hcap HL Hfit hdata
    exact ⟨segs, h1, h2⟩

/-- Witness for C2 on a mixed two-character input under `env0`. -/
theorem c2_roundtrip_witness :
    ((∀ m, env0.ciw m ≤ 16) ∧ env0.numDataBits < INF ∧
      (['A', '1'] : List Char).length ≤ MAX_CHARACTER ∧
      (findBest ((computeCosts env0 ['A', '1'] initTables).dp
        (['A', '1'] : List Char).length) (['A', '1'] : List Char).length).cost ≤
        env0.numDataBits) ∧
    (∃ segs, (compute env0 ['A', '1'] initTables).1 = Except.ok segs ∧
      joinData segs = ['A', '1']) :=
  ⟨⟨by decide, by decide, by decide, by decide⟩,
    c2_roundtrip env0 ['A', '1'] (by decide) (by decide) (by decide) (by decide)⟩

/-- C3: for every nonempty digit-only string within the character cap
whose Numeric cost fits the capacity, `compute` returns exactly one
segment, carrying the whole input under the Numeric encoder. Stated under
the count-indicator width relations of the real capacity table (the
Numeric width exceeds the Alphanumeric width by at most 1 and the Byte
width by at most 3) and the spec fact that digits are not
Kanji-encodable. -/
theorem c3_all_numeric (env : Env) (data : List Char)
    (Hciw : ∀ m, env.ciw m ≤ 16) (Hcap : env.numDataBits < INF)
    (H1 : env.ciw Mode.numeric ≤ env.ciw Mode.alphanumeric + 1)
    (H2 : env.ciw Mode.numeric ≤ env.ciw Mode.byte + 3)
    (H3 : ∀ c, numericValidChar c = true → env.kanjiValid c = false)
    (HL : data.length ≤ MAX_CHARACTER) (hne : data ≠ [])
    (hdig : ∀ c ∈ data, numericValidChar c = true)
    (Hfit : encLength env Mode.numeric data ≤ env.numDataBits) :
    (compute env data initTables).1 = Except.ok [⟨data, Mode.numeric⟩] := by
  have hP0 : ValidPartition env data [⟨data, Mode.numeric⟩] := by
    refine ⟨by simp [joinData], ?_⟩
    intro s hs
    rcases List.mem_singleton.mp hs with rfl
    exact ⟨hne, fun c hc => hdig c hc⟩
  have hb := best_le_partition env data Hciw HL hne _ hP0
  have hcl0 : compute_length env [(⟨data, Mode.numeric⟩ : Segment)] =
      encLength env Mode.numeric data := by
    simp [compute_length]
  rw [hcl0] at hb
  have Hfit2 : (findBest ((computeCosts env data initTables).dp data.length)
      data.length).cost ≤ env.numDataBits := by omega
  obtain ⟨segs, hok, hjoin, hcost, hvp⟩ := compute_correct env data Hciw Hcap HL Hfit2 hne
  have hdom := digit_partition_ge env H1 H2 H3 segs data hne hdig hvp
  have heq : compute_length env segs = encLength env Mode.numeric data := by omega
  rw [hok, hdom.2 heq]

/-- Witness for C3 on the one-digit input under `env0`. -/
theorem c3_all_numeric_witness :
    ((∀ m, env0.ciw m ≤ 16) ∧
      env0.ciw Mode.numeric ≤ env0.ciw Mode.alphanumeric + 1 ∧
      (∀ c ∈ (['1'] : List Char), numericValidChar c = true) ∧
      encLength env0 Mode.numeric ['1'] ≤ env0.numDataBits) ∧
    (compute env0 ['1'] initTables).1 = Except.ok [⟨['1'], Mode.numeric⟩] :=
  ⟨⟨by decide, by decide, by decide, by decide⟩,
    c3_all_numeric env0 ['1'] (by decide) (by decide) (by decide) (by decide)
      (fun c _ => rfl) (by decide) (by decide) (by decide) (by decide)⟩

/-- C4: a relaxation candidate whose resulting cost equals the cost already
stored in the target cell never overwrites that cell (the update uses
strict `<`), and `_find_best` returns, among the minimal-cost terminal
states, the one with the smallest mode index in the fixed order Numeric,
Alphanumeric, Byte, Kanji, and the smallest unfilled length within that
mode — equal-cost ties always go to the first-evaluated candidate. -/
theorem c4_tie_break :
    (∀ (env : Env) (n : Nat) (c : Char) (cur : Row) (acc : Row × PRow)
        (cand : (Mode × Fin 3) × Mode),
      cur cand.1.1 cand.1.2 + (transitionOf env c cand.1.1 cand.1.2 cand.2).1 =
        acc.1 cand.2 (transitionOf env c cand.1.1 cand.1.2 cand.2).2 →
      relaxStep env n c cur acc cand = acc) ∧
    (∀ (row : Row) (L : Nat), (findBest row L).cost < INF →
      ∃ m u, (findBest row L).index = some (L, m, u) ∧
        row m u = (findBest row L).cost ∧
        (∀ m2 u2, row m2 u2 = (findBest row L).cost → m.idx ≤ m2.idx) ∧
        (∀ u2, row m u2 = (findBest row L).cost → u.val ≤ u2.val)) := by
  constructor
  · intro env n c cur acc cand heq
    unfold relaxStep
    dsimp only
    split_ifs with h1 h2 h3
    · rfl
    · exfalso
      omega
    · rfl
    · rfl
  · intro row L h
    obtain ⟨m, u, h1, h2, h3⟩ := findBest_argmin row L h
    refine ⟨m, u, h1, h2, ?_, ?_⟩
    · intro m2 u2 hv
      have h4 := h3 m2 u2 hv
      have hu := u.isLt
      have hu2 := u2.isLt
      omega
    · intro u2 hv
      have h4 := h3 m u2 hv
      omega

/-- A terminal row with a single finite cell, for the C4 witness. -/
def rowW : Row := fun m u => if m = Mode.numeric ∧ u = 0 then 5 else INF

/-- Witness for C4: an equal-cost candidate leaves the accumulator intact,
and `_find_best` picks the first minimal state of a concrete row. -/
theorem c4_tie_break_witness :
    ((fun (_ : Mode) (_ : Fin 3) => (10 : Nat)) ((Mode.numeric, (0 : Fin 3)), Mode.numeric).1.1
        ((Mode.numeric, (0 : Fin 3)), Mode.numeric).1.2 +
      (transitionOf env0 '1' Mode.numeric 0 Mode.numeric).1 =
      (fun (_ : Mode) (_ : Fin 3) => (14 : Nat)) Mode.numeric
        (transitionOf env0 '1' Mode.numeric 0 Mode.numeric).2 ∧
      relaxStep env0 0 '1' (fun _ _ => 10)
        ((fun _ _ => 14), (fun _ _ => Parent.unset)) ((Mode.numeric, 0), Mode.numeric) =
        ((fun _ _ => 14), (fun _ _ => Parent.unset))) ∧
    ((findBest rowW 3).cost < INF ∧
      ∃ m u, (findBest rowW 3).index = some (3, m, u) ∧ rowW m u = (findBest rowW 3).cost ∧
        (∀ m2 u2, rowW m2 u2 = (findBest rowW 3).cost → m.idx ≤ m2.idx) ∧
        (∀ u2, rowW m u2 = (findBest rowW 3).cost → u.val ≤ u2.val)) :=
  ⟨⟨by decide,
      c4_tie_break.1 env0 0 '1' (fun _ _ => 10) ((fun _ _ => 14), (fun _ _ => Parent.unset))
        ((Mode.numeric, 0), Mode.numeric) (by decide)⟩,
    ⟨by decide, c4_tie_break.2 rowW 3 (by decide)⟩⟩

/-- C5: for inputs within the character cap on a fresh instance, `compute`
raises `DataTooLongError` exactly when the DP minimum exceeds the capacity
`number_of_data_bits` for the requested version and ECC level, returning no
partial segmentation; when the minimum is within capacity this check does
not raise and a segment list is returned. -/
theorem c5_capacity_enforcement (env : Env) (data : List Char)
    (Hciw : ∀ m, env.ciw m ≤ 16) (Hcap : env.numDataBits < INF)
    (HL : data.length ≤ MAX_CHARACTER) :
    ((compute env data initTables).1 = Except.error RmqrError.dataTooLongError ↔
      (findBest ((computeCosts env data initTables).dp data.length) data.length).cost >
        env.numDataBits) ∧
    ((findBest ((computeCosts env data initTables).dp data.length) data.length).cost ≤
        env.numDataBits →
      ∃ segs, (compute env data initTables).1 = Except.ok segs) := by
  have hok : (findBest ((computeCosts env data initTables).dp data.length)
      data.length).cost ≤ env.numDataBits →
      ∃ segs, (compute env data initTables).1 = Except.ok segs := by
    intro hfit
    by_cases hdata : data = []
    · subst hdata
      exact ⟨[], compute_empty_ok env Hciw (by simpa using hfit)⟩
    · obtain ⟨segs, h1, _, _, _⟩ := compute_correct env data Hciw Hcap HL hfit hdata
      exact ⟨segs, h1⟩
  refine ⟨⟨?_, ?_⟩, hok⟩
  · intro herr
    by_contra hng
    obtain ⟨segs, hseg⟩ := hok (by omega)
    rw [hseg] at herr
    exact Except.noConfusion herr
  · intro hgt
    rw [compute_unfold_err env data initTables (by omega) hgt]

/-- Witness for C5 on a one-character input under `env0`. -/
theorem c5_capacity_enforcement_witness :
    ((∀ m, env0.ciw m ≤ 16) ∧ env0.numDataBits < INF ∧
      (['1'] : List Char).length ≤ MAX_CHARACTER) ∧
    ((compute env0 ['1'] initTables).1 = Except.error RmqrError.dataTooLongError ↔
      (findBest ((computeCosts env0 ['1'] initTables).dp (['1'] : List Char).length)
        (['1'] : List Char).length).cost > env0.numDataBits) ∧
    ((findBest ((computeCosts env0 ['1'] initTables).dp (['1'] : List Char).length)
        (['1'] : List Char).length).cost ≤ env0.numDataBits →
      ∃ segs, (compute env0 ['1'] initTables).1 = Except.ok segs) :=
  ⟨⟨by decide, by decide, by decide⟩,
    c5_capacity_enforcement env0 ['1'] (by decide) (by decide) (by decide)⟩

/-- C6: every input longer than 360 characters makes `compute` raise
`DataTooLongError` immediately, for every environment (version and ECC
level) and every instance state, leaving the DP tables untouched — the
check happens before any DP computation. -/
theorem c6_character_cap (env : Env) (data : List Char) (t : Tables)
    (h : data.length > MAX_CHARACTER) :
    compute env data t = (Except.error RmqrError.dataTooLongError, t) := by
  unfold compute
  rw [if_pos h]

/-- Witness for C6 at a 361-character input. -/
theorem c6_character_cap_witness :
    (List.replicate 361 'a').length > MAX_CHARACTER ∧
    compute env0 (List.replicate 361 'a') initTables =
      (Except.error RmqrError.dataTooLongError, initTables) :=
  ⟨by simp only [List.length_replicate, MAX_CHARACTER]; omega,
    c6_character_cap env0 (List.replicate 361 'a') initTables
      (by simp only [List.length_replicate, MAX_CHARACTER]; omega)⟩

/-- C7, counterexample: for `data = "aa"` and count indicator width 1 the
`zfill` of the 2-bit binary count does not truncate, so
`ByteEncoder.encode` emits 21 bits while `ByteEncoder.length` reports 20 —
the claimed equality does not hold for every width. -/
theorem c7_counterexample :
    (ByteEncoder.encode ['a', 'a'] 1).length = 21 ∧
    ByteEncoder.length ['a', 'a'] 1 = 20 ∧ (21 : Nat) ≠ 20 :=
  ⟨by decide, by decide, by decide⟩

/-- C7, amended: whenever the binary representation of the character count
fits in the count indicator width, `ByteEncoder.length(data, w)` equals
the bit length of `ByteEncoder.encode(data, w)` — 3 bits of mode
indicator, `w` bits of count indicator, and 8 bits per UTF-8 byte. -/
theorem c7_length_matches_encode (data : List Char) (w : Nat)
    (h : (ByteEncoder.pyBin data.length).length ≤ w) :
    (ByteEncoder.encode data w).length = ByteEncoder.length data w := by
  unfold ByteEncoder.encode ByteEncoder.length
  simp only [List.length_append]
  rw [ByteEncoder.zfill_length, ByteEncoder.encoded_bits_length]
  have hmi : (ByteEncoder.mode_indicator).length = 3 := rfl
  rw [hmi]
  omega

/-- Witness for C7 on a two-character input with width 8. -/
theorem c7_length_matches_encode_witness :
    (ByteEncoder.pyBin (['a', 'b'] : List Char).length).length ≤ 8 ∧
    (ByteEncoder.encode ['a', 'b'] 8).length = ByteEncoder.length ['a', 'b'] 8 :=
  ⟨by decide, c7_length_matches_encode ['a', 'b'] 8 (by decide)⟩

/-- C8 (code bug): `compute` never reinitializes the tables allocated by
`__init__`, so on a reused instance stale DP rows of a previous call
survive the strict-`<` relaxation and change the result. After computing
"0", computing "A" on the same instance returns a Numeric-mode segment
(the stale cost 11 of the digit run wins `_find_best`), while a fresh
instance returns the Alphanumeric segment — the results differ. -/
theorem c8_stale_state :
    (compute env0 ['A'] (compute env0 ['0'] initTables).2).1 =
      Except.ok [⟨['A'], Mode.numeric⟩] ∧
    (compute env0 ['A'] initTables).1 = Except.ok [⟨['A'], Mode.alphanumeric⟩] ∧
    (compute env0 ['A'] (compute env0 ['0'] initTables).2).1 ≠
      (compute env0 ['A'] initTables).1 :=
  ⟨by decide, by decide, by decide⟩

/-- C9, counterexample: after the DP base case setup the root parent cell
of the Alphanumeric row holds the literal tuple `(0, 0, 0)` — whose mode
component is index 0, Numeric — not its own index `(0, 1, 0)`, so root
cells are not self-referential for modes other than Numeric. -/
theorem c9_counterexample :
    (baseSetup env0 initTables).parents 0 Mode.alphanumeric 0 =
      Parent.mk 0 Mode.numeric 0 ∧
    Parent.mk 0 Mode.numeric 0 ≠ Parent.mk 0 Mode.alphanumeric 0 :=
  ⟨by decide, by decide⟩

/-- C9, amended: after the DP base case is set up, every root parent cell
`parents[0][mode][0]` holds the constant root marker `(0, 0, 0)` — the
tuple whose mode component is index 0 — which is self-referential exactly
for the Numeric row. -/
theorem c9_root_parent (env : Env) (t : Tables) (m : Mode) :
    (baseSetup env t).parents 0 m 0 = Parent.mk 0 Mode.numeric 0 := by
  unfold baseSetup
  dsimp only
  rw [Function.update_same, if_pos rfl]

/-- C10: for the empty input string, `compute` returns the empty segment
list without raising, provided the smallest empty-header cost over the
four modes fits the capacity — the reconstructed path from a terminal
state at position 0 is empty. -/
theorem c10_empty_input (env : Env) (Hciw : ∀ m, env.ciw m ≤ 16)
    (Hfit : ∃ m, 3 + env.ciw m ≤ env.numDataBits) :
    (compute env [] initTables).1 = Except.ok [] := by
  obtain ⟨m, hm⟩ := Hfit
  apply compute_empty_ok env Hciw
  have hb := findBest_le ((computeCosts env [] initTables).dp 0) 0 m 0
  have hbase : (computeCosts env [] initTables).dp 0 m 0 = encLength env m [] := by
    show (costsUpTo env [] initTables ([] : List Char).length).dp 0 m 0 = _
    rw [(costsUpTo_row_zero env [] initTables ([] : List Char).length m 0).1]
    simp
  rw [hbase, encLength_nil] at hb
  omega

/-- Witness for C10 under `env0`. -/
theorem c10_empty_input_witness :
    ((∀ m, env0.ciw m ≤ 16) ∧ (∃ m, 3 + env0.ciw m ≤ env0.numDataBits)) ∧
    (compute env0 [] initTables).1 = Except.ok [] :=
  ⟨⟨by decide, ⟨Mode.numeric, by decide⟩⟩,
    c10_empty_input env0 (by decide) ⟨Mode.numeric, by decide⟩⟩

end RMQR
